import Mathlib

/-!
# Verification of the flatnotes house-checklist / todo engine

Shallow embedding of `house-checklist/frontend/app.js` (the checklist data
model, the optimistic toggles, the progress and statistics computations) and,
for the components of the todo-dashboard backend that are not part of the
source tree, definitions modelled from the specification (marker grammar,
write-back toggle, corpus scan).

JavaScript conventions mapped to Lean:
* an object field that may be absent (`phase.subPhases`, `phase.tasks`,
  `subPhase.rooms`, `subPhase.tasks`) becomes an `Option`; a present but
  empty array is `some []`, which is truthy in JS, exactly as `if (x)` sees it;
* an access on `undefined` (a thrown `TypeError`) becomes `Option.none`
  propagation: a function that can throw returns `Option`/a pair carrying
  the unchanged state;
* IEEE-double arithmetic used only for display percentages is modelled in
  exact rational arithmetic, with `toFixed(1)` modelled as rounding to one
  decimal (ties away from zero for the nonnegative values that occur here).
-/

set_option autoImplicit false

namespace HC

/-- One checklist task leaf, `{ text, completed }` in `app.js`. -/
structure Task where
  text : String
  completed : Bool
deriving DecidableEq

/-- A room inside a painting sub-phase, `{ title, tasks }`. -/
structure Room where
  title : String
  tasks : List Task
deriving DecidableEq

/-- A sub-phase, `{ title, rooms?, tasks? }`; `rooms`/`tasks` may be absent. -/
structure SubPhase where
  title : String
  rooms : Option (List Room)
  tasks : Option (List Task)
deriving DecidableEq

/-- A phase, `{ title, subPhases?, tasks? }`; `subPhases`/`tasks` may be absent. -/
structure Phase where
  title : String
  subPhases : Option (List SubPhase)
  tasks : Option (List Task)
deriving DecidableEq

/-- One checklist half, `{ title, phases }` (`interior` or `exterior`). -/
structure SectionData where
  title : String
  phases : List Phase
deriving DecidableEq

/-- The whole `checklistData` object: `{ interior, exterior }`. -/
structure ChecklistData where
  interior : SectionData
  exterior : SectionData
deriving DecidableEq

/-- The `total++ / if (task.completed) completed++` loop body shared by every
progress computation in `app.js`. -/
def addCount (acc : Nat × Nat) (t : Task) : Nat × Nat :=
  (acc.1 + 1, if t.completed then acc.2 + 1 else acc.2)

/-- `calculateRoomProgress(room)` from `app.js`: counts a room's tasks. -/
def calculateRoomProgress (room : Room) : Nat × Nat :=
  room.tasks.foldl addCount (0, 0)

/-- The body of the `subPhase` iteration shared by `calculatePhaseProgress`
and `calculateSubPhaseProgress`: rooms take precedence over direct tasks. -/
def subPhaseCount (acc : Nat × Nat) (sp : SubPhase) : Nat × Nat :=
  match sp.rooms with
  | some rooms => rooms.foldl (fun a r => r.tasks.foldl addCount a) acc
  | none =>
    match sp.tasks with
    | some ts => ts.foldl addCount acc
    | none => acc

/-- `calculateSubPhaseProgress(subPhase)` from `app.js`. -/
def calculateSubPhaseProgress (sp : SubPhase) : Nat × Nat :=
  subPhaseCount (0, 0) sp

/-- JS `Number.toFixed(1)` on the nonnegative values occurring here,
in exact rational arithmetic: round to one decimal, ties upward. -/
def jsToFixed1 (q : ℚ) : ℚ :=
  (round (q * 10) : ℤ) / 10

/-- Result record of `calculatePhaseProgress`: `{ total, completed, percentage }`. -/
structure PhaseProgress where
  total : Nat
  completed : Nat
  percentage : ℚ
deriving DecidableEq

/-- `calculatePhaseProgress(phase)` from `app.js`: `subPhases` take precedence
over direct `tasks`; the percentage division is guarded by `total > 0`. -/
def calculatePhaseProgress (phase : Phase) : PhaseProgress :=
  let tc : Nat × Nat :=
    match phase.subPhases with
    | some sps => sps.foldl subPhaseCount (0, 0)
    | none =>
      match phase.tasks with
      | some ts => ts.foldl addCount (0, 0)
      | none => (0, 0)
  { total := tc.1
    completed := tc.2
    percentage :=
      if tc.1 > 0 then jsToFixed1 ((tc.2 : ℚ) / (tc.1 : ℚ) * 100) else 0 }

/-- The task leaves of a room. -/
def roomLeaves (r : Room) : List Task := r.tasks

/-- The task leaves reachable from a sub-phase, in the branch order of
`app.js` (`rooms` take precedence over direct `tasks`). -/
def subPhaseLeaves (sp : SubPhase) : List Task :=
  match sp.rooms with
  | some rooms => (rooms.map roomLeaves).flatten
  | none => sp.tasks.getD []

/-- The task leaves reachable from a phase, in the branch order of `app.js`
(`subPhases` take precedence over direct `tasks`). -/
def phaseLeaves (ph : Phase) : List Task :=
  match ph.subPhases with
  | some sps => (sps.map subPhaseLeaves).flatten
  | none => ph.tasks.getD []

/-- Count of leaves and of completed leaves in a list of tasks. -/
def leafCount (ts : List Task) : Nat × Nat :=
  (ts.length, (ts.filter (·.completed)).length)

/-- In-place JS array-element mutation `xs[i] = ...` as a functional update:
`none` models the `TypeError` thrown when `xs[i]` is `undefined`
(index out of bounds), or when the inner access itself throws. -/
def modifyAt {α : Type} (l : List α) (i : Nat) (f : α → Option α) :
    Option (List α) :=
  match l, i with
  | [], _ => none
  | x :: xs, 0 => (f x).map (· :: xs)
  | x :: xs, i + 1 => (modifyAt xs i f).map (x :: ·)

/-- `checklistData[section]`: only `"interior"` and `"exterior"` resolve,
any other key yields `undefined`. -/
def sectionOf (d : ChecklistData) (sec : String) : Option SectionData :=
  if sec = "interior" then some d.interior
  else if sec = "exterior" then some d.exterior
  else none

/-- Rebuild `checklistData` with one section replaced. -/
def withSection (d : ChecklistData) (sec : String) (s : SectionData) :
    ChecklistData :=
  if sec = "interior" then { d with interior := s }
  else if sec = "exterior" then { d with exterior := s }
  else d

/-- The single-field assignment `task.completed = completed`. -/
def setCompleted (v : Bool) (t : Task) : Option Task :=
  some { t with completed := v }

/-- The `subPhases[subPhaseIndex].tasks[taskIndex].completed = completed`
step of `toggleTask` inside one sub-phase. -/
def toggleInSubPhase (ti : Nat) (v : Bool) (sp : SubPhase) : Option SubPhase := do
  let ts ← sp.tasks
  let ts' ← modifyAt ts ti (setCompleted v)
  pure { sp with tasks := some ts' }

/-- The per-phase step of `toggleTask`: with `subPhaseIndex !== null` descend
into `subPhases`, otherwise assign into the phase's direct `tasks`. -/
def toggleInPhase (spi : Option Nat) (ti : Nat) (v : Bool) (ph : Phase) :
    Option Phase :=
  match spi with
  | some j => do
    let sps ← ph.subPhases
    let sps' ← modifyAt sps j (toggleInSubPhase ti v)
    pure { ph with subPhases := some sps' }
  | none => do
    let ts ← ph.tasks
    let ts' ← modifyAt ts ti (setCompleted v)
    pure { ph with tasks := some ts' }

/-- The local-data mutation of `toggleTask(section, phaseIndex, subPhaseIndex,
taskIndex, completed)` in `app.js`:
`checklistData[section].phases[phaseIndex].subPhases[subPhaseIndex].tasks[taskIndex].completed = completed`
when `subPhaseIndex !== null`, else
`checklistData[section].phases[phaseIndex].tasks[taskIndex].completed = completed`.
`none` models the thrown `TypeError` when any access along the path hits
`undefined`, in which case nothing has been assigned. -/
def toggleTaskLocal (d : ChecklistData) (sec : String) (phaseIndex : Nat)
    (subPhaseIndex : Option Nat) (taskIndex : Nat) (v : Bool) :
    Option ChecklistData := do
  let s ← sectionOf d sec
  let phases' ← modifyAt s.phases phaseIndex (toggleInPhase subPhaseIndex taskIndex v)
  pure (withSection d sec { s with phases := phases' })

/-- The `tasks[taskIndex].completed = completed` step of `toggleRoomTask`
inside one room. -/
def toggleInRoom (ti : Nat) (v : Bool) (room : Room) : Option Room := do
  let ts' ← modifyAt room.tasks ti (setCompleted v)
  pure { room with tasks := ts' }

/-- The per-sub-phase step of `toggleRoomTask`: descend into `rooms`. -/
def toggleRoomInSubPhase (ri : Nat) (ti : Nat) (v : Bool) (sp : SubPhase) :
    Option SubPhase := do
  let rooms ← sp.rooms
  let rooms' ← modifyAt rooms ri (toggleInRoom ti v)
  pure { sp with rooms := some rooms' }

/-- The per-phase step of `toggleRoomTask`: descend into `subPhases`. -/
def toggleRoomInPhase (spi : Nat) (ri : Nat) (ti : Nat) (v : Bool) (ph : Phase) :
    Option Phase := do
  let sps ← ph.subPhases
  let sps' ← modifyAt sps spi (toggleRoomInSubPhase ri ti v)
  pure { ph with subPhases := some sps' }

/-- The local-data mutation of `toggleRoomTask(section, phaseIndex,
subPhaseIndex, roomIndex, taskIndex, completed)` in `app.js`:
`checklistData[section].phases[phaseIndex].subPhases[subPhaseIndex].rooms[roomIndex].tasks[taskIndex].completed = completed`. -/
def toggleRoomTaskLocal (d : ChecklistData) (sec : String) (phaseIndex : Nat)
    (subPhaseIndex : Nat) (roomIndex : Nat) (taskIndex : Nat) (v : Bool) :
    Option ChecklistData := do
  let s ← sectionOf d sec
  let phases' ← modifyAt s.phases phaseIndex
    (toggleRoomInPhase subPhaseIndex roomIndex taskIndex v)
  pure (withSection d sec { s with phases := phases' })

/-- Address of one task leaf in the checklist, matching the three index
shapes used by `toggleTask` (without / with `subPhaseIndex`) and
`toggleRoomTask`. -/
inductive Addr where
  | direct (sec : String) (phaseIndex taskIndex : Nat)
  | sub (sec : String) (phaseIndex subPhaseIndex taskIndex : Nat)
  | room (sec : String) (phaseIndex subPhaseIndex roomIndex taskIndex : Nat)
deriving DecidableEq

/-- The section key of an address. -/
def Addr.secKey : Addr → String
  | .direct s _ _ => s
  | .sub s _ _ _ => s
  | .room s _ _ _ _ => s

/-- The phase index of an address. -/
def Addr.phaseIdx : Addr → Nat
  | .direct _ p _ => p
  | .sub _ p _ _ => p
  | .room _ p _ _ _ => p

/-- Read the task leaf addressed inside one phase (the section key and
phase index of the address are not used at this level). -/
def taskAtPhase (ph : Phase) : Addr → Option Task
  | .direct _ _ ti => ph.tasks.bind (·[ti]?)
  | .sub _ _ spi ti => do
    let sps ← ph.subPhases
    let sp ← sps[spi]?
    let ts ← sp.tasks
    ts[ti]?
  | .room _ _ spi ri ti => do
    let sps ← ph.subPhases
    let sp ← sps[spi]?
    let rooms ← sp.rooms
    let room ← rooms[ri]?
    room.tasks[ti]?

/-- Read the task leaf at an address, `none` when the path does not resolve. -/
def taskAt (d : ChecklistData) (a : Addr) : Option Task := do
  let s ← sectionOf d a.secKey
  let ph ← s.phases[a.phaseIdx]?
  taskAtPhase ph a

/-- The address written by `toggleTask` with the given indices (`.sub` when
`subPhaseIndex !== null`, `.direct` otherwise). -/
def toggleAddr (sec : String) (pi : Nat) (spi : Option Nat) (ti : Nat) : Addr :=
  match spi with
  | some j => .sub sec pi j ti
  | none => .direct sec pi ti

/-- Forget every `completed` flag: two checklists agree under
`stripCompleted` exactly when they agree on all titles, all task texts and
the whole nesting structure. -/
def stripTask (t : Task) : Task := { t with completed := false }

def stripRoom (r : Room) : Room := { r with tasks := r.tasks.map stripTask }

def stripSubPhase (sp : SubPhase) : SubPhase :=
  { sp with
    rooms := sp.rooms.map (·.map stripRoom)
    tasks := sp.tasks.map (·.map stripTask) }

def stripPhase (ph : Phase) : Phase :=
  { ph with
    subPhases := ph.subPhases.map (·.map stripSubPhase)
    tasks := ph.tasks.map (·.map stripTask) }

def stripSection (s : SectionData) : SectionData :=
  { s with phases := s.phases.map stripPhase }

def stripCompleted (d : ChecklistData) : ChecklistData :=
  { interior := stripSection d.interior, exterior := stripSection d.exterior }

/-- The per-phase body of the interior loop of `updateStatistics` (same
branching as `calculatePhaseProgress`): `subPhases` (with `rooms` before
`tasks` inside) take precedence over direct `tasks`. -/
def phaseCount (acc : Nat × Nat) (ph : Phase) : Nat × Nat :=
  match ph.subPhases with
  | some sps => sps.foldl subPhaseCount acc
  | none =>
    match ph.tasks with
    | some ts => ts.foldl addCount acc
    | none => acc

/-- The exterior loop of `updateStatistics` reads `phase.tasks`
unconditionally (`phase.tasks.forEach`), so a phase without `tasks` throws:
`none` result. -/
def exteriorCount (phases : List Phase) : Option (Nat × Nat) :=
  phases.foldlM (fun acc ph => ph.tasks.map (fun ts => ts.foldl addCount acc)) (0, 0)

/-- The percentage string `(completed / total * 100).toFixed(1)` of
`updateStatistics`, in exact rationals; `none` models the `NaN` shown when
`total = 0`. -/
def pctDisplay (completed total : Nat) : Option ℚ :=
  if total = 0 then none
  else some (jsToFixed1 ((completed : ℚ) / (total : ℚ) * 100))

/-- The numbers `updateStatistics` writes to the page. -/
structure Stats where
  totalTasks : Nat
  completedTasks : Nat
  remainingTasks : Nat
  overallPercentage : Option ℚ
  interiorTotal : Nat
  interiorCompleted : Nat
  interiorRemaining : Nat
  interiorPercentage : Option ℚ
  exteriorTotal : Nat
  exteriorCompleted : Nat
  exteriorRemaining : Nat
  exteriorPercentage : Option ℚ
deriving DecidableEq

/-- `updateStatistics()` from `app.js`: the interior loop handles the three
nesting shapes, the exterior loop reads `phase.tasks` unconditionally;
`none` models the `TypeError` aborting the function before any number is
displayed. -/
def updateStatistics (d : ChecklistData) : Option Stats := do
  let ic := d.interior.phases.foldl phaseCount (0, 0)
  let ec ← exteriorCount d.exterior.phases
  let total := ic.1 + ec.1
  let completed := ic.2 + ec.2
  pure
    { totalTasks := total
      completedTasks := completed
      remainingTasks := total - completed
      overallPercentage := pctDisplay completed total
      interiorTotal := ic.1
      interiorCompleted := ic.2
      interiorRemaining := ic.1 - ic.2
      interiorPercentage := pctDisplay ic.2 ic.1
      exteriorTotal := ec.1
      exteriorCompleted := ec.2
      exteriorRemaining := ec.1 - ec.2
      exteriorPercentage := pctDisplay ec.2 ec.1 }

/-- All task leaves of the interior section, in traversal order. -/
def interiorLeaves (d : ChecklistData) : List Task :=
  (d.interior.phases.map phaseLeaves).flatten

/-- All task leaves of the exterior section as the exterior loop reads them
(direct `tasks` only). -/
def exteriorLeaves (d : ChecklistData) : List Task :=
  (d.exterior.phases.map (fun ph => ph.tasks.getD [])).flatten

/-- All task leaves of the checklist, interior first, as `updateStatistics`
counts them. -/
def allLeaves (d : ChecklistData) : List Task :=
  interiorLeaves d ++ exteriorLeaves d

/-- The shape precondition of claim C10: every exterior phase has a direct
`tasks` array, and every interior phase has direct `tasks` or `subPhases`
whose sub-phases have `tasks` or `rooms`. -/
def exteriorShapeOk (d : ChecklistData) : Prop :=
  ∀ ph ∈ d.exterior.phases, ph.tasks.isSome

instance (d : ChecklistData) : Decidable (exteriorShapeOk d) := by
  unfold exteriorShapeOk
  infer_instance

/-- The shape precondition of claim C10 on interior phases: direct `tasks`,
or `subPhases` each carrying `tasks` or `rooms`. -/
def interiorShapeOk (d : ChecklistData) : Bool :=
  d.interior.phases.all (fun ph =>
    ph.tasks.isSome ||
      (match ph.subPhases with
       | some sps => sps.all (fun sp => sp.tasks.isSome || sp.rooms.isSome)
       | none => false))

/-- One event observed by the frontend client state `checklistData`. -/
inductive ClientEvent where
  | wsMessage (mtype : String) (data : ChecklistData)
  | fetchLoaded (data : ChecklistData)
  | toggleEv (sec : String) (phaseIndex : Nat) (subPhaseIndex : Option Nat)
      (taskIndex : Nat) (v : Bool) (fetchOk : Bool)
  | toggleRoomEv (sec : String) (phaseIndex subPhaseIndex roomIndex taskIndex : Nat)
      (v : Bool) (fetchOk : Bool)

/-- One step of the client state, from `app.js`:
* `socket.onmessage` replaces `checklistData` wholesale when
  `message.type === 'update' || message.type === 'initial'`;
* `loadChecklistData` replaces it wholesale with the fetched snapshot;
* `toggleTask` / `toggleRoomTask` perform the single-field optimistic
  assignment before the backend call; the `fetchOk` flag of the event (did
  the POST succeed?) is deliberately ignored, as in the source, which only
  logs the failure; a `TypeError` on the access path leaves the state
  unchanged. -/
def clientStep (s : Option ChecklistData) : ClientEvent → Option ChecklistData
  | .wsMessage t data => if t = "update" ∨ t = "initial" then some data else s
  | .fetchLoaded data => some data
  | .toggleEv sec pi spi ti v _ =>
    match s with
    | none => none
    | some d =>
      match toggleTaskLocal d sec pi spi ti v with
      | some d' => some d'
      | none => some d
  | .toggleRoomEv sec pi spi ri ti v _ =>
    match s with
    | none => none
    | some d =>
      match toggleRoomTaskLocal d sec pi spi ri ti v with
      | some d' => some d'
      | none => some d

/-- Modelled from the spec: the line-ending convention of a document
(§4.6 step 2), CRLF or LF, detected at read time and preserved. -/
inductive Eol where
  | lf
  | crlf
deriving DecidableEq

/-- Modelled from the spec: a document on disk, split into lines with its
line-ending convention (§4.6 step 2); the byte content is the lines joined
by the convention's separator. The write-back engine itself is not under
`src/`, only the spec describes it. -/
structure Document where
  lines : List (List Char)
  eol : Eol
deriving DecidableEq

/-- Modelled from the spec: the error taxonomy of §7. -/
inductive ToggleError where
  | notFound
  | staleReference
  | ioFailure
deriving DecidableEq

def isSpaceChar (c : Char) : Bool := c = ' ' || c = '\t'

def isBullet (c : Char) : Bool := c = '-' || c = '*' || c = '+'

def isBoxChar (c : Char) : Bool := c = ' ' || c = 'x' || c = 'X'

/-- After the checkbox token the line must end or continue with whitespace. -/
def okAfterBox : List Char → Bool
  | [] => true
  | c :: _ => isSpaceChar c

/-- Modelled from the spec: the §4.1 marker grammar — optional leading
whitespace, a bullet (`-`, `*`, `+`), whitespace, a checkbox `[ ]`/`[x]`/`[X]`,
then end of line or whitespace.  Returns the decomposition
`(prefix up to and including the opening bracket, state character,
suffix from the closing bracket)`, so that
`prefix ++ state :: suffix` is the whole line. -/
def parseMarker (cs : List Char) : Option (List Char × Char × List Char) :=
  let ws := cs.takeWhile isSpaceChar
  match cs.dropWhile isSpaceChar with
  | b :: r1 =>
    if isBullet b then
      let ws2 := r1.takeWhile isSpaceChar
      match r1.dropWhile isSpaceChar with
      | '[' :: s :: ']' :: tail =>
        if ws2.isEmpty then none
        else if isBoxChar s && okAfterBox tail then
          some (ws ++ b :: ws2 ++ ['['], s, ']' :: tail)
        else none
      | _ => none
    else none
  | [] => none

/-- Modelled from the spec: the §4.6 step-4 flip of the checkbox state
character: `' ' → 'x'`, `'x'/'X' → ' '`. -/
def flipBox (c : Char) : Char := if c = ' ' then 'x' else ' '

/-- Modelled from the spec: toggle one line — validate it still parses as a
marker (§4.6 step 3), flip exactly the checkbox token (§4.6 step 4), and
report the new completion state. -/
def toggleLine (cs : List Char) : Option (List Char × Bool) :=
  (parseMarker cs).map (fun x => (x.1 ++ flipBox x.2.1 :: x.2.2, x.2.1 == ' '))

/-- Modelled from the spec: `toggle(filePath, lineNumber)` on one already
read document (§4.6 steps 2-4): `lineNumber` is 1-based; out of bounds or a
line that no longer parses as a marker is a `StaleReference`; on success
only that line is replaced and the line-ending convention is kept. -/
def toggleDoc (doc : Document) (lineNumber : Nat) :
    Except ToggleError (Document × Bool) :=
  match lineNumber with
  | 0 => .error .staleReference
  | n + 1 =>
    match doc.lines[n]? with
    | none => .error .staleReference
    | some line =>
      match toggleLine line with
      | none => .error .staleReference
      | some (line', c) => .ok ({ doc with lines := doc.lines.set n line' }, c)

/-- Look a document up in the modelled filesystem (first binding wins). -/
def lookupFs (fs : List (String × Document)) (p : String) : Option Document :=
  match fs with
  | [] => none
  | e :: rest => if e.1 = p then some e.2 else lookupFs rest p

/-- Replace the document stored at a path. -/
def writeFs (fs : List (String × Document)) (p : String) (doc : Document) :
    List (String × Document) :=
  match fs with
  | [] => []
  | e :: rest => (if e.1 = p then (e.1, doc) else e) :: writeFs rest p doc

/-- Modelled from the spec: the full `toggle(filePath, lineNumber)` contract
of §4.6 over a filesystem: `NotFound` when the document is missing,
`StaleReference` from `toggleDoc`, and `IOFailure` (modelled by the `ioOk`
flag) when the atomic write-rename fails — in which case the original
document is untouched, because the failure happens before the rename
commits.  The state component of the result is the filesystem after the
call: every failure path returns it unchanged. -/
def toggleFs (fs : List (String × Document)) (p : String) (n : Nat)
    (ioOk : Bool) : List (String × Document) × Except ToggleError Bool :=
  match lookupFs fs p with
  | none => (fs, .error .notFound)
  | some doc =>
    match toggleDoc doc n with
    | .error e => (fs, .error e)
    | .ok (doc', c) =>
      if ioOk then (writeFs fs p doc', .ok c) else (fs, .error .ioFailure)

/-- Modelled from the spec: one extracted todo record (file path, 1-based
line number, completion state), the locator data of §3. -/
structure TodoRec where
  filePath : String
  lineNumber : Nat
  completed : Bool
deriving DecidableEq

/-- Modelled from the spec: the Marker Parser of §4.1 over one document —
one record per line matching the grammar, in file order. -/
def docTodos (p : String) (lines : List (List Char)) : List TodoRec :=
  lines.enum.filterMap (fun e =>
    (parseMarker e.2).map (fun x => ⟨p, e.1 + 1, !(x.2.1 == ' ')⟩))

/-- Modelled from the spec: the Corpus Scanner of §4.4 — each corpus entry is
a path with `some` parsed lines or `none` for an unreadable/malformed
document; a bad document is skipped with a warning (its path) and scanning
continues. Returns the aggregated index and the warning list. -/
def scanCorpus (corpus : List (String × Option (List (List Char)))) :
    List TodoRec × List String :=
  corpus.foldl
    (fun acc e =>
      match e.2 with
      | some lines => (acc.1 ++ docTodos e.1 lines, acc.2)
      | none => (acc.1, acc.2 ++ [e.1]))
    ([], [])

/-- The completion state stored at a (1-based) line of a document, when that
line parses as a marker. -/
def docCompletedAt (doc : Document) (n : Nat) : Option Bool :=
  match n with
  | 0 => none
  | m + 1 => (doc.lines[m]?).bind (fun l => (parseMarker l).map (fun x => !(x.2.1 == ' ')))

/-- The checkbox state character at a (1-based) line of a document. -/
def boxAt (doc : Document) (n : Nat) : Option Char :=
  match n with
  | 0 => none
  | m + 1 => (doc.lines[m]?).bind (fun l => (parseMarker l).map (fun x => x.2.1))

/-- The list part of the good corpus: each readable document's todos. -/
def goodTodos (corpus : List (String × Option (List (List Char)))) :
    List TodoRec :=
  (corpus.filterMap (fun e => e.2.map (docTodos e.1))).flatten

/-- The warning part: the paths of unreadable documents, in order. -/
def badPaths (corpus : List (String × Option (List (List Char)))) :
    List String :=
  corpus.filterMap (fun e => match e.2 with | none => some e.1 | some _ => none)

/-- Componentwise sum of `(total, completed)` pairs. -/
def pairAdd (x y : Nat × Nat) : Nat × Nat := (x.1 + y.1, x.2 + y.2)

/-- Sum of a list of `(total, completed)` pairs. -/
def sumPairs (l : List (Nat × Nat)) : Nat × Nat := l.foldr pairAdd (0, 0)

/-- A small concrete checklist exercising all three nesting shapes. -/
def sampleData : ChecklistData :=
  { interior :=
      { title := "Interior Tasks"
        phases :=
          [ { title := "Phase 1"
              subPhases := some
                [ { title := "Upstairs", rooms := none
                    tasks := some [⟨"A", false⟩, ⟨"B", true⟩] }
                , { title := "Mid Level"
                    rooms := some [⟨"Room1", [⟨"C", false⟩]⟩]
                    tasks := none } ]
              tasks := none }
          , { title := "Phase 2", subPhases := none
              tasks := some [⟨"D", false⟩] } ] }
    exterior :=
      { title := "Exterior Tasks"
        phases := [ { title := "Phase E1", subPhases := none
                      tasks := some [⟨"E", true⟩] } ] } }

/-- `sampleData` after the optimistic toggle of interior phase 2, task 0. -/
def sampleDataT : ChecklistData :=
  { interior :=
      { title := "Interior Tasks"
        phases :=
          [ { title := "Phase 1"
              subPhases := some
                [ { title := "Upstairs", rooms := none
                    tasks := some [⟨"A", false⟩, ⟨"B", true⟩] }
                , { title := "Mid Level"
                    rooms := some [⟨"Room1", [⟨"C", false⟩]⟩]
                    tasks := none } ]
              tasks := none }
          , { title := "Phase 2", subPhases := none
              tasks := some [⟨"D", true⟩] } ] }
    exterior :=
      { title := "Exterior Tasks"
        phases := [ { title := "Phase E1", subPhases := none
                      tasks := some [⟨"E", true⟩] } ] } }

/-- The statistics of `sampleData`: 5 leaves, 2 completed. -/
def sampleStats : Stats :=
  { totalTasks := 5, completedTasks := 2, remainingTasks := 3
    overallPercentage := pctDisplay 2 5
    interiorTotal := 4, interiorCompleted := 1, interiorRemaining := 3
    interiorPercentage := pctDisplay 1 4
    exteriorTotal := 1, exteriorCompleted := 1, exteriorRemaining := 0
    exteriorPercentage := pctDisplay 1 1 }

/-- A checklist whose exterior section uses `subPhases` without direct
`tasks` — the shape the exterior loop of `updateStatistics` cannot handle. -/
def badExteriorData : ChecklistData :=
  { interior :=
      { title := "I", phases := [⟨"P", none, some [⟨"a", false⟩]⟩] }
    exterior :=
      { title := "E"
        phases := [⟨"Q", some [⟨"S", none, some [⟨"b", false⟩]⟩], none⟩] } }

/-- A phase with `subPhases` present but empty: zero task leaves. -/
def emptyPhase : Phase := ⟨"Empty", some [], none⟩

/-- A small document: heading, one unchecked marker, prose; CRLF endings. -/
def sampleDoc : Document :=
  ⟨["# Heading".toList, "- [ ] task one".toList, "plain".toList], .crlf⟩

/-- `sampleDoc` after toggling line 2. -/
def sampleDocT : Document :=
  ⟨["# Heading".toList, "- [x] task one".toList, "plain".toList], .crlf⟩

/-- A one-file filesystem. -/
def sampleFs : List (String × Document) := [("notes.md", sampleDoc)]

/-- A document whose only line carries the uppercase checkbox `[X]`. -/
def upperDoc : Document := ⟨["- [X] a".toList], .lf⟩

/-- `upperDoc` after one toggle: unchecked. -/
def upperDoc1 : Document := ⟨["- [ ] a".toList], .lf⟩

/-- `upperDoc` after two toggles: checked again, but lowercase. -/
def upperDoc2 : Document := ⟨["- [x] a".toList], .lf⟩

/-- A three-document corpus whose middle document is unreadable. -/
def sampleCorpus : List (String × Option (List (List Char))) :=
  [("a.md", some ["- [ ] t".toList]), ("bad.md", none),
   ("c.md", some ["- [X] u".toList])]

example :
    calculateRoomProgress ⟨"r", [⟨"a", true⟩, ⟨"b", false⟩, ⟨"c", true⟩]⟩ = (3, 2) := by
  decide

example :
    calculatePhaseProgress ⟨"p", none, some [⟨"a", true⟩, ⟨"b", false⟩]⟩ =
      ⟨2, 1, 50⟩ := by
  norm_num [calculatePhaseProgress, jsToFixed1, addCount, round_eq]

theorem foldl_addCount (ts : List Task) (acc : Nat × Nat) :
    ts.foldl addCount acc =
      (acc.1 + (leafCount ts).1, acc.2 + (leafCount ts).2) := by
  induction ts generalizing acc with
  | nil => simp [leafCount]
  | cons t ts ih =>
    simp only [List.foldl_cons, ih, leafCount, addCount, List.length_cons,
      List.filter_cons]
    by_cases h : t.completed <;>
      simp [h] <;> omega

theorem subPhaseCount_eq (acc : Nat × Nat) (sp : SubPhase) :
    subPhaseCount acc sp =
      (acc.1 + (leafCount (subPhaseLeaves sp)).1,
       acc.2 + (leafCount (subPhaseLeaves sp)).2) := by
  unfold subPhaseCount subPhaseLeaves
  match sp with
  | ⟨title, some rooms, tasks⟩ =>
    simp only
    induction rooms generalizing acc with
    | nil => simp [leafCount]
    | cons r rs ih =>
      rw [List.foldl_cons, ih]
      simp only [foldl_addCount, List.map_cons, List.flatten_cons, leafCount,
        roomLeaves, List.length_append, List.filter_append, Prod.mk.injEq]
      omega
  | ⟨title, none, some ts⟩ => simpa using foldl_addCount ts acc
  | ⟨title, none, none⟩ => simp [leafCount]

theorem foldl_subPhaseCount (sps : List SubPhase) (acc : Nat × Nat) :
    sps.foldl subPhaseCount acc =
      (acc.1 + (leafCount ((sps.map subPhaseLeaves).flatten)).1,
       acc.2 + (leafCount ((sps.map subPhaseLeaves).flatten)).2) := by
  induction sps generalizing acc with
  | nil => simp [leafCount]
  | cons sp sps ih =>
    simp only [List.foldl_cons, subPhaseCount_eq, ih, List.map_cons,
      List.flatten_cons, leafCount, List.length_append, List.filter_append,
      Prod.mk.injEq]
    omega

/-- The pair `(total, completed)` computed by `calculatePhaseProgress`
is exactly the leaf count of the phase. -/
theorem calculatePhaseProgress_count (ph : Phase) :
    ((calculatePhaseProgress ph).total, (calculatePhaseProgress ph).completed) =
      leafCount (phaseLeaves ph) := by
  unfold calculatePhaseProgress phaseLeaves
  match ph with
  | ⟨title, some sps, tasks⟩ =>
    simp [foldl_subPhaseCount, leafCount]
  | ⟨title, none, some ts⟩ =>
    simp [foldl_addCount, leafCount]
  | ⟨title, none, none⟩ => simp [leafCount]

/-- `calculateSubPhaseProgress` is exactly the leaf count of the sub-phase. -/
theorem calculateSubPhaseProgress_count (sp : SubPhase) :
    calculateSubPhaseProgress sp = leafCount (subPhaseLeaves sp) := by
  unfold calculateSubPhaseProgress
  simp [subPhaseCount_eq]

/-- `calculateRoomProgress` is exactly the leaf count of the room. -/
theorem calculateRoomProgress_count (r : Room) :
    calculateRoomProgress r = leafCount (roomLeaves r) := by
  unfold calculateRoomProgress roomLeaves
  simpa using foldl_addCount r.tasks (0, 0)

theorem modifyAt_length {α : Type} (l : List α) (i : Nat) (f : α → Option α)
    (l' : List α) (h : modifyAt l i f = some l') : l'.length = l.length := by
  induction l generalizing i l' with
  | nil => simp [modifyAt] at h
  | cons x xs ih =>
    cases i with
    | zero =>
      simp only [modifyAt, Option.map_eq_some'] at h
      obtain ⟨y, _, rfl⟩ := h
      simp
    | succ j =>
      simp only [modifyAt, Option.map_eq_some'] at h
      obtain ⟨ys, hy, rfl⟩ := h
      simp [ih j ys hy]

theorem modifyAt_get_ne {α : Type} (l : List α) (i : Nat) (f : α → Option α)
    (l' : List α) (h : modifyAt l i f = some l') (j : Nat) (hj : j ≠ i) :
    l'[j]? = l[j]? := by
  induction l generalizing i j l' with
  | nil => simp [modifyAt] at h
  | cons x xs ih =>
    cases i with
    | zero =>
      simp only [modifyAt, Option.map_eq_some'] at h
      obtain ⟨y, _, rfl⟩ := h
      cases j with
      | zero => exact absurd rfl hj
      | succ k => simp
    | succ i' =>
      simp only [modifyAt, Option.map_eq_some'] at h
      obtain ⟨ys, hy, rfl⟩ := h
      cases j with
      | zero => simp
      | succ k =>
        simpa using ih i' ys hy k (fun hk => hj (by omega))

theorem modifyAt_get_eq {α : Type} (l : List α) (i : Nat) (f : α → Option α)
    (l' : List α) (h : modifyAt l i f = some l') :
    ∃ x y, l[i]? = some x ∧ f x = some y ∧ l'[i]? = some y := by
  induction l generalizing i l' with
  | nil => simp [modifyAt] at h
  | cons x xs ih =>
    cases i with
    | zero =>
      simp only [modifyAt, Option.map_eq_some'] at h
      obtain ⟨y, hy, rfl⟩ := h
      exact ⟨x, y, by simp, hy, by simp⟩
    | succ i' =>
      simp only [modifyAt, Option.map_eq_some'] at h
      obtain ⟨ys, hy, rfl⟩ := h
      simpa using ih i' ys hy

theorem modifyAt_map_invariant {α β : Type} (l : List α) (i : Nat)
    (f : α → Option α) (g : α → β) (l' : List α)
    (h : modifyAt l i f = some l') (hf : ∀ x y, f x = some y → g y = g x) :
    l'.map g = l.map g := by
  induction l generalizing i l' with
  | nil => simp [modifyAt] at h
  | cons x xs ih =>
    cases i with
    | zero =>
      simp only [modifyAt, Option.map_eq_some'] at h
      obtain ⟨y, hy, rfl⟩ := h
      simp [hf x y hy]
    | succ i' =>
      simp only [modifyAt, Option.map_eq_some'] at h
      obtain ⟨ys, hy, rfl⟩ := h
      simp [ih i' ys hy]

theorem modifyAt_stable {α : Type} (l : List α) (i : Nat) (f : α → Option α)
    (l' : List α) (h : modifyAt l i f = some l')
    (hf : ∀ x y, f x = some y → f y = some y) : modifyAt l' i f = some l' := by
  induction l generalizing i l' with
  | nil => simp [modifyAt] at h
  | cons x xs ih =>
    cases i with
    | zero =>
      simp only [modifyAt, Option.map_eq_some'] at h
      obtain ⟨y, hy, rfl⟩ := h
      simp [modifyAt, hf x y hy]
    | succ i' =>
      simp only [modifyAt, Option.map_eq_some'] at h
      obtain ⟨ys, hy, rfl⟩ := h
      simp [modifyAt, ih i' ys hy]

theorem sectionOf_withSection_self (d : ChecklistData) (sec : String)
    (s0 s : SectionData) (h : sectionOf d sec = some s0) :
    sectionOf (withSection d sec s) sec = some s := by
  by_cases h1 : sec = "interior" <;> by_cases h2 : sec = "exterior" <;>
    simp_all [sectionOf, withSection]

theorem sectionOf_withSection_ne (d : ChecklistData) (sec sec' : String)
    (s : SectionData) (h : sec' ≠ sec) :
    sectionOf (withSection d sec s) sec' = sectionOf d sec' := by
  by_cases h1 : sec = "interior" <;> by_cases h2 : sec = "exterior" <;>
    by_cases h3 : sec' = "interior" <;> by_cases h4 : sec' = "exterior" <;>
    simp_all [sectionOf, withSection]

theorem setCompleted_eq_some (v : Bool) (t t' : Task)
    (h : setCompleted v t = some t') : t' = { t with completed := v } := by
  simpa [setCompleted] using h.symm

theorem toggleInSubPhase_eq_some (ti : Nat) (v : Bool) (sp sp' : SubPhase)
    (h : toggleInSubPhase ti v sp = some sp') :
    ∃ ts ts', sp.tasks = some ts ∧ modifyAt ts ti (setCompleted v) = some ts' ∧
      sp' = { sp with tasks := some ts' } := by
  rcases hts : sp.tasks with _ | ts
  · simp [toggleInSubPhase, hts] at h
  · rcases hm : modifyAt ts ti (setCompleted v) with _ | ts'
    · simp [toggleInSubPhase, hts, hm] at h
    · refine ⟨ts, ts', rfl, hm, ?_⟩
      simp [toggleInSubPhase, hts, hm] at h
      exact h.symm

theorem toggleInPhase_none_eq_some (ti : Nat) (v : Bool) (ph ph' : Phase)
    (h : toggleInPhase none ti v ph = some ph') :
    ∃ ts ts', ph.tasks = some ts ∧ modifyAt ts ti (setCompleted v) = some ts' ∧
      ph' = { ph with tasks := some ts' } := by
  rcases hts : ph.tasks with _ | ts
  · simp [toggleInPhase, hts] at h
  · rcases hm : modifyAt ts ti (setCompleted v) with _ | ts'
    · simp [toggleInPhase, hts, hm] at h
    · refine ⟨ts, ts', rfl, hm, ?_⟩
      simp [toggleInPhase, hts, hm] at h
      exact h.symm

theorem toggleInPhase_some_eq_some (spi ti : Nat) (v : Bool) (ph ph' : Phase)
    (h : toggleInPhase (some spi) ti v ph = some ph') :
    ∃ sps sps', ph.subPhases = some sps ∧
      modifyAt sps spi (toggleInSubPhase ti v) = some sps' ∧
      ph' = { ph with subPhases := some sps' } := by
  rcases hsps : ph.subPhases with _ | sps
  · simp [toggleInPhase, hsps] at h
  · rcases hm : modifyAt sps spi (toggleInSubPhase ti v) with _ | sps'
    · simp [toggleInPhase, hsps, hm] at h
    · refine ⟨sps, sps', rfl, hm, ?_⟩
      simp [toggleInPhase, hsps, hm] at h
      exact h.symm

theorem toggleInRoom_eq_some (ti : Nat) (v : Bool) (room room' : Room)
    (h : toggleInRoom ti v room = some room') :
    ∃ ts', modifyAt room.tasks ti (setCompleted v) = some ts' ∧
      room' = { room with tasks := ts' } := by
  rcases hm : modifyAt room.tasks ti (setCompleted v) with _ | ts'
  · simp [toggleInRoom, hm] at h
  · refine ⟨ts', rfl, ?_⟩
    simp [toggleInRoom, hm] at h
    exact h.symm

theorem toggleRoomInSubPhase_eq_some (ri ti : Nat) (v : Bool)
    (sp sp' : SubPhase) (h : toggleRoomInSubPhase ri ti v sp = some sp') :
    ∃ rooms rooms', sp.rooms = some rooms ∧
      modifyAt rooms ri (toggleInRoom ti v) = some rooms' ∧
      sp' = { sp with rooms := some rooms' } := by
  rcases hr : sp.rooms with _ | rooms
  · simp [toggleRoomInSubPhase, hr] at h
  · rcases hm : modifyAt rooms ri (toggleInRoom ti v) with _ | rooms'
    · simp [toggleRoomInSubPhase, hr, hm] at h
    · refine ⟨rooms, rooms', rfl, hm, ?_⟩
      simp [toggleRoomInSubPhase, hr, hm] at h
      exact h.symm

theorem toggleRoomInPhase_eq_some (spi ri ti : Nat) (v : Bool) (ph ph' : Phase)
    (h : toggleRoomInPhase spi ri ti v ph = some ph') :
    ∃ sps sps', ph.subPhases = some sps ∧
      modifyAt sps spi (toggleRoomInSubPhase ri ti v) = some sps' ∧
      ph' = { ph with subPhases := some sps' } := by
  rcases hsps : ph.subPhases with _ | sps
  · simp [toggleRoomInPhase, hsps] at h
  · rcases hm : modifyAt sps spi (toggleRoomInSubPhase ri ti v) with _ | sps'
    · simp [toggleRoomInPhase, hsps, hm] at h
    · refine ⟨sps, sps', rfl, hm, ?_⟩
      simp [toggleRoomInPhase, hsps, hm] at h
      exact h.symm

theorem toggleTaskLocal_eq_some (d : ChecklistData) (sec : String)
    (pi : Nat) (spi : Option Nat) (ti : Nat) (v : Bool) (d' : ChecklistData)
    (h : toggleTaskLocal d sec pi spi ti v = some d') :
    ∃ s phases', sectionOf d sec = some s ∧
      modifyAt s.phases pi (toggleInPhase spi ti v) = some phases' ∧
      d' = withSection d sec { s with phases := phases' } := by
  rcases hs : sectionOf d sec with _ | s
  · simp [toggleTaskLocal, hs] at h
  · rcases hm : modifyAt s.phases pi (toggleInPhase spi ti v) with _ | phases'
    · simp [toggleTaskLocal, hs, hm] at h
    · refine ⟨s, phases', rfl, hm, ?_⟩
      simp [toggleTaskLocal, hs, hm] at h
      exact h.symm

theorem toggleRoomTaskLocal_eq_some (d : ChecklistData) (sec : String)
    (pi spi ri ti : Nat) (v : Bool) (d' : ChecklistData)
    (h : toggleRoomTaskLocal d sec pi spi ri ti v = some d') :
    ∃ s phases', sectionOf d sec = some s ∧
      modifyAt s.phases pi (toggleRoomInPhase spi ri ti v) = some phases' ∧
      d' = withSection d sec { s with phases := phases' } := by
  rcases hs : sectionOf d sec with _ | s
  · simp [toggleRoomTaskLocal, hs] at h
  · rcases hm : modifyAt s.phases pi (toggleRoomInPhase spi ri ti v) with _ | phases'
    · simp [toggleRoomTaskLocal, hs, hm] at h
    · refine ⟨s, phases', rfl, hm, ?_⟩
      simp [toggleRoomTaskLocal, hs, hm] at h
      exact h.symm

theorem toggleInPhase_frame (spi : Option Nat) (ti : Nat) (v : Bool)
    (ph ph' : Phase) (h : toggleInPhase spi ti v ph = some ph') (a : Addr)
    (hne : match spi, a with
      | none, .direct _ _ ti' => ti' ≠ ti
      | some j, .sub _ _ spi' ti' => ¬(spi' = j ∧ ti' = ti)
      | _, _ => True) :
    taskAtPhase ph' a = taskAtPhase ph a := by
  cases spi with
  | none =>
    obtain ⟨ts, ts', hts, hm, rfl⟩ := toggleInPhase_none_eq_some ti v ph ph' h
    cases a with
    | direct s p ti' =>
      simp only at hne
      simp [taskAtPhase, hts, modifyAt_get_ne ts ti _ ts' hm ti' hne]
    | sub s p spi' ti' => simp [taskAtPhase]
    | room s p spi' ri ti' => simp [taskAtPhase]
  | some j =>
    obtain ⟨sps, sps', hsps, hm, rfl⟩ := toggleInPhase_some_eq_some j ti v ph ph' h
    cases a with
    | direct s p ti' => simp [taskAtPhase]
    | sub s p spi' ti' =>
      simp only at hne
      by_cases hspi : spi' = j
      · subst hspi
        have hti : ti' ≠ ti := fun hh => hne ⟨rfl, hh⟩
        obtain ⟨sp, sp', hget, hsp, hget'⟩ := modifyAt_get_eq sps spi' _ sps' hm
        obtain ⟨ts, ts', hts2, hm2, rfl⟩ := toggleInSubPhase_eq_some ti v sp sp' hsp
        simp [taskAtPhase, hsps, hget, hget', hts2,
          modifyAt_get_ne ts ti _ ts' hm2 ti' hti]
      · simp [taskAtPhase, hsps, modifyAt_get_ne sps j _ sps' hm spi' hspi]
    | room s p spi' ri ti' =>
      by_cases hspi : spi' = j
      · subst hspi
        obtain ⟨sp, sp', hget, hsp, hget'⟩ := modifyAt_get_eq sps spi' _ sps' hm
        obtain ⟨ts, ts', hts2, hm2, rfl⟩ := toggleInSubPhase_eq_some ti v sp sp' hsp
        simp [taskAtPhase, hsps, hget, hget']
      · simp [taskAtPhase, hsps, modifyAt_get_ne sps j _ sps' hm spi' hspi]

theorem toggleInPhase_target (spi : Option Nat) (ti : Nat) (v : Bool)
    (ph ph' : Phase) (h : toggleInPhase spi ti v ph = some ph')
    (sec : String) (pi : Nat) :
    ∃ t, taskAtPhase ph (toggleAddr sec pi spi ti) = some t ∧
      taskAtPhase ph' (toggleAddr sec pi spi ti) = some { t with completed := v } := by
  cases spi with
  | none =>
    obtain ⟨ts, ts', hts, hm, rfl⟩ := toggleInPhase_none_eq_some ti v ph ph' h
    obtain ⟨t, t', hget, hset, hget'⟩ := modifyAt_get_eq ts ti _ ts' hm
    refine ⟨t, ?_, ?_⟩
    · simp [toggleAddr, taskAtPhase, hts, hget]
    · have := setCompleted_eq_some v t t' hset
      subst this
      simp [toggleAddr, taskAtPhase, hget']
  | some j =>
    obtain ⟨sps, sps', hsps, hm, rfl⟩ := toggleInPhase_some_eq_some j ti v ph ph' h
    obtain ⟨sp, sp', hget, hsp, hget'⟩ := modifyAt_get_eq sps j _ sps' hm
    obtain ⟨ts, ts', hts2, hm2, rfl⟩ := toggleInSubPhase_eq_some ti v sp sp' hsp
    obtain ⟨t, t', htget, hset, htget'⟩ := modifyAt_get_eq ts ti _ ts' hm2
    refine ⟨t, ?_, ?_⟩
    · simp [toggleAddr, taskAtPhase, hsps, hget, hts2, htget]
    · have := setCompleted_eq_some v t t' hset
      subst this
      simp [toggleAddr, taskAtPhase, hget', htget']

theorem toggleRoomInPhase_frame (spi ri ti : Nat) (v : Bool)
    (ph ph' : Phase) (h : toggleRoomInPhase spi ri ti v ph = some ph') (a : Addr)
    (hne : match a with
      | .room _ _ spi' ri' ti' => ¬(spi' = spi ∧ ri' = ri ∧ ti' = ti)
      | _ => True) :
    taskAtPhase ph' a = taskAtPhase ph a := by
  obtain ⟨sps, sps', hsps, hm, rfl⟩ := toggleRoomInPhase_eq_some spi ri ti v ph ph' h
  cases a with
  | direct s p ti' => simp [taskAtPhase]
  | sub s p spi' ti' =>
    by_cases hspi : spi' = spi
    · subst hspi
      obtain ⟨sp, sp', hget, hsp, hget'⟩ := modifyAt_get_eq sps spi' _ sps' hm
      obtain ⟨rooms, rooms', hr, hm2, rfl⟩ :=
        toggleRoomInSubPhase_eq_some ri ti v sp sp' hsp
      simp [taskAtPhase, hsps, hget, hget']
    · simp [taskAtPhase, hsps, modifyAt_get_ne sps spi _ sps' hm spi' hspi]
  | room s p spi' ri' ti' =>
    simp only at hne
    by_cases hspi : spi' = spi
    · subst hspi
      obtain ⟨sp, sp', hget, hsp, hget'⟩ := modifyAt_get_eq sps spi' _ sps' hm
      obtain ⟨rooms, rooms', hr, hm2, rfl⟩ :=
        toggleRoomInSubPhase_eq_some ri ti v sp sp' hsp
      by_cases hri : ri' = ri
      · subst hri
        have hti : ti' ≠ ti := fun hh => hne ⟨rfl, rfl, hh⟩
        obtain ⟨room, room', hrget, hroom, hrget'⟩ := modifyAt_get_eq rooms ri' _ rooms' hm2
        obtain ⟨ts', hm3, rfl⟩ := toggleInRoom_eq_some ti v room room' hroom
        simp [taskAtPhase, hsps, hget, hget', hr, hrget, hrget',
          modifyAt_get_ne room.tasks ti _ ts' hm3 ti' hti]
      · simp [taskAtPhase, hsps, hget, hget', hr,
          modifyAt_get_ne rooms ri _ rooms' hm2 ri' hri]
    · simp [taskAtPhase, hsps, modifyAt_get_ne sps spi _ sps' hm spi' hspi]

theorem toggleRoomInPhase_target (spi ri ti : Nat) (v : Bool)
    (ph ph' : Phase) (h : toggleRoomInPhase spi ri ti v ph = some ph')
    (sec : String) (pi : Nat) :
    ∃ t, taskAtPhase ph (.room sec pi spi ri ti) = some t ∧
      taskAtPhase ph' (.room sec pi spi ri ti) = some { t with completed := v } := by
  obtain ⟨sps, sps', hsps, hm, rfl⟩ := toggleRoomInPhase_eq_some spi ri ti v ph ph' h
  obtain ⟨sp, sp', hget, hsp, hget'⟩ := modifyAt_get_eq sps spi _ sps' hm
  obtain ⟨rooms, rooms', hr, hm2, rfl⟩ := toggleRoomInSubPhase_eq_some ri ti v sp sp' hsp
  obtain ⟨room, room', hrget, hroom, hrget'⟩ := modifyAt_get_eq rooms ri _ rooms' hm2
  obtain ⟨ts', hm3, rfl⟩ := toggleInRoom_eq_some ti v room room' hroom
  obtain ⟨t, t', htget, hset, htget'⟩ := modifyAt_get_eq room.tasks ti _ ts' hm3
  refine ⟨t, ?_, ?_⟩
  · simp [taskAtPhase, hsps, hget, hr, hrget, htget]
  · have := setCompleted_eq_some v t t' hset
    subst this
    simp [taskAtPhase, hget', hrget', htget']

theorem stripTask_setCompleted (v : Bool) (t t' : Task)
    (h : setCompleted v t = some t') : stripTask t' = stripTask t := by
  have := setCompleted_eq_some v t t' h
  subst this
  rfl

theorem stripSubPhase_toggleInSubPhase (ti : Nat) (v : Bool) (sp sp' : SubPhase)
    (h : toggleInSubPhase ti v sp = some sp') :
    stripSubPhase sp' = stripSubPhase sp := by
  obtain ⟨ts, ts', hts, hm, rfl⟩ := toggleInSubPhase_eq_some ti v sp sp' h
  simp [stripSubPhase, hts,
    modifyAt_map_invariant ts ti _ stripTask ts' hm (stripTask_setCompleted v)]

theorem stripPhase_toggleInPhase (spi : Option Nat) (ti : Nat) (v : Bool)
    (ph ph' : Phase) (h : toggleInPhase spi ti v ph = some ph') :
    stripPhase ph' = stripPhase ph := by
  cases spi with
  | none =>
    obtain ⟨ts, ts', hts, hm, rfl⟩ := toggleInPhase_none_eq_some ti v ph ph' h
    simp [stripPhase, hts,
      modifyAt_map_invariant ts ti _ stripTask ts' hm (stripTask_setCompleted v)]
  | some j =>
    obtain ⟨sps, sps', hsps, hm, rfl⟩ := toggleInPhase_some_eq_some j ti v ph ph' h
    simp [stripPhase, hsps,
      modifyAt_map_invariant sps j _ stripSubPhase sps' hm
        (stripSubPhase_toggleInSubPhase ti v)]

theorem stripRoom_toggleInRoom (ti : Nat) (v : Bool) (room room' : Room)
    (h : toggleInRoom ti v room = some room') :
    stripRoom room' = stripRoom room := by
  obtain ⟨ts', hm, rfl⟩ := toggleInRoom_eq_some ti v room room' h
  simp [stripRoom,
    modifyAt_map_invariant room.tasks ti _ stripTask ts' hm
      (stripTask_setCompleted v)]

theorem stripSubPhase_toggleRoomInSubPhase (ri ti : Nat) (v : Bool)
    (sp sp' : SubPhase) (h : toggleRoomInSubPhase ri ti v sp = some sp') :
    stripSubPhase sp' = stripSubPhase sp := by
  obtain ⟨rooms, rooms', hr, hm, rfl⟩ := toggleRoomInSubPhase_eq_some ri ti v sp sp' h
  simp [stripSubPhase, hr,
    modifyAt_map_invariant rooms ri _ stripRoom rooms' hm
      (stripRoom_toggleInRoom ti v)]

theorem stripPhase_toggleRoomInPhase (spi ri ti : Nat) (v : Bool)
    (ph ph' : Phase) (h : toggleRoomInPhase spi ri ti v ph = some ph') :
    stripPhase ph' = stripPhase ph := by
  obtain ⟨sps, sps', hsps, hm, rfl⟩ := toggleRoomInPhase_eq_some spi ri ti v ph ph' h
  simp [stripPhase, hsps,
    modifyAt_map_invariant sps spi _ stripSubPhase sps' hm
      (stripSubPhase_toggleRoomInSubPhase ri ti v)]

theorem stripCompleted_withSection (d : ChecklistData) (sec : String)
    (s s' : SectionData) (hs : sectionOf d sec = some s)
    (hstrip : stripSection s' = stripSection s) :
    stripCompleted (withSection d sec s') = stripCompleted d := by
  by_cases h1 : sec = "interior" <;> by_cases h2 : sec = "exterior" <;>
    simp_all [sectionOf, withSection, stripCompleted]

theorem stripSection_phases (s : SectionData) (phases' : List Phase)
    (h : phases'.map stripPhase = s.phases.map stripPhase) :
    stripSection { s with phases := phases' } = stripSection s := by
  simp [stripSection, h]

theorem taskAt_congr_section (d1 d2 : ChecklistData) (a : Addr)
    (h : sectionOf d1 a.secKey = sectionOf d2 a.secKey) :
    taskAt d1 a = taskAt d2 a := by
  simp [taskAt, h]

/-- Full frame property of `toggleTask`'s local mutation: only the addressed
leaf's `completed` flag changes; its text is kept; every other address reads
the same task; all titles, texts and the nesting structure are untouched. -/
theorem toggleTaskLocal_frame (d : ChecklistData) (sec : String) (pi : Nat)
    (spi : Option Nat) (ti : Nat) (v : Bool) (d' : ChecklistData)
    (h : toggleTaskLocal d sec pi spi ti v = some d') :
    (∀ a : Addr, a ≠ toggleAddr sec pi spi ti → taskAt d' a = taskAt d a) ∧
    (∃ t, taskAt d (toggleAddr sec pi spi ti) = some t ∧
      taskAt d' (toggleAddr sec pi spi ti) = some { t with completed := v }) ∧
    stripCompleted d' = stripCompleted d := by
  obtain ⟨s, phases', hs, hm, rfl⟩ := toggleTaskLocal_eq_some d sec pi spi ti v d' h
  have hkey : (toggleAddr sec pi spi ti).secKey = sec := by
    cases spi <;> simp [toggleAddr, Addr.secKey]
  have hpidx : (toggleAddr sec pi spi ti).phaseIdx = pi := by
    cases spi <;> simp [toggleAddr, Addr.phaseIdx]
  refine ⟨?_, ?_, ?_⟩
  · intro a hne
    by_cases hsec : a.secKey = sec
    · have hsa : sectionOf (withSection d sec { s with phases := phases' }) a.secKey =
          some { s with phases := phases' } := by
        rw [hsec]
        exact sectionOf_withSection_self d sec s _ hs
      have hsb : sectionOf d a.secKey = some s := by rw [hsec]; exact hs
      by_cases hpi : a.phaseIdx = pi
      · obtain ⟨ph, ph', hget, hph, hget'⟩ := modifyAt_get_eq s.phases pi _ phases' hm
        have hframe : taskAtPhase ph' a = taskAtPhase ph a := by
          apply toggleInPhase_frame spi ti v ph ph' hph a
          cases spi with
          | none =>
            cases a with
            | direct s2 p2 ti' =>
              simp only [Addr.secKey] at hsec
              simp only [Addr.phaseIdx] at hpi
              subst hsec
              subst hpi
              simpa [toggleAddr] using hne
            | sub s2 p2 spi' ti' => trivial
            | room s2 p2 spi' ri' ti' => trivial
          | some j =>
            cases a with
            | direct s2 p2 ti' => trivial
            | sub s2 p2 spi' ti' =>
              simp only [Addr.secKey] at hsec
              simp only [Addr.phaseIdx] at hpi
              subst hsec
              subst hpi
              simpa [toggleAddr, not_and] using fun h1 h2 => hne (by simp [h1, h2, toggleAddr])
            | room s2 p2 spi' ri' ti' => trivial
        simp [taskAt, hsa, hsb, hpi, hget, hget', hframe]
      · simp [taskAt, hsa, hsb,
          modifyAt_get_ne s.phases pi _ phases' hm a.phaseIdx hpi]
    · have := sectionOf_withSection_ne d sec a.secKey { s with phases := phases' } hsec
      exact taskAt_congr_section _ d a (by rw [this])
  · obtain ⟨ph, ph', hget, hph, hget'⟩ := modifyAt_get_eq s.phases pi _ phases' hm
    obtain ⟨t, h1, h2⟩ := toggleInPhase_target spi ti v ph ph' hph sec pi
    have hsa : sectionOf (withSection d sec { s with phases := phases' })
        (toggleAddr sec pi spi ti).secKey = some { s with phases := phases' } := by
      rw [hkey]
      exact sectionOf_withSection_self d sec s _ hs
    have hsb : sectionOf d (toggleAddr sec pi spi ti).secKey = some s := by
      rw [hkey]; exact hs
    exact ⟨t, by simp [taskAt, hsb, hpidx, hget, h1],
      by simp [taskAt, hsa, hpidx, hget', h2]⟩
  · apply stripCompleted_withSection d sec s _ hs
    apply stripSection_phases
    exact modifyAt_map_invariant s.phases pi _ stripPhase phases' hm
      (stripPhase_toggleInPhase spi ti v)

/-- Full frame property of `toggleRoomTask`'s local mutation, as for
`toggleTaskLocal_frame`. -/
theorem toggleRoomTaskLocal_frame (d : ChecklistData) (sec : String)
    (pi spi ri ti : Nat) (v : Bool) (d' : ChecklistData)
    (h : toggleRoomTaskLocal d sec pi spi ri ti v = some d') :
    (∀ a : Addr, a ≠ .room sec pi spi ri ti → taskAt d' a = taskAt d a) ∧
    (∃ t, taskAt d (.room sec pi spi ri ti) = some t ∧
      taskAt d' (.room sec pi spi ri ti) = some { t with completed := v }) ∧
    stripCompleted d' = stripCompleted d := by
  obtain ⟨s, phases', hs, hm, rfl⟩ := toggleRoomTaskLocal_eq_some d sec pi spi ri ti v d' h
  refine ⟨?_, ?_, ?_⟩
  · intro a hne
    by_cases hsec : a.secKey = sec
    · have hsa : sectionOf (withSection d sec { s with phases := phases' }) a.secKey =
          some { s with phases := phases' } := by
        rw [hsec]
        exact sectionOf_withSection_self d sec s _ hs
      have hsb : sectionOf d a.secKey = some s := by rw [hsec]; exact hs
      by_cases hpi : a.phaseIdx = pi
      · obtain ⟨ph, ph', hget, hph, hget'⟩ := modifyAt_get_eq s.phases pi _ phases' hm
        have hframe : taskAtPhase ph' a = taskAtPhase ph a := by
          apply toggleRoomInPhase_frame spi ri ti v ph ph' hph a
          cases a with
          | direct s2 p2 ti' => trivial
          | sub s2 p2 spi' ti' => trivial
          | room s2 p2 spi' ri' ti' =>
            simp only [Addr.secKey] at hsec
            simp only [Addr.phaseIdx] at hpi
            subst hsec
            subst hpi
            simpa [not_and] using fun h1 h2 h3 => hne (by simp [h1, h2, h3])
        simp [taskAt, hsa, hsb, hpi, hget, hget', hframe]
      · simp [taskAt, hsa, hsb,
          modifyAt_get_ne s.phases pi _ phases' hm a.phaseIdx hpi]
    · have := sectionOf_withSection_ne d sec a.secKey { s with phases := phases' } hsec
      exact taskAt_congr_section _ d a (by rw [this])
  · obtain ⟨ph, ph', hget, hph, hget'⟩ := modifyAt_get_eq s.phases pi _ phases' hm
    obtain ⟨t, h1, h2⟩ := toggleRoomInPhase_target spi ri ti v ph ph' hph sec pi
    have hsa : sectionOf (withSection d sec { s with phases := phases' })
        (Addr.room sec pi spi ri ti).secKey = some { s with phases := phases' } := by
      exact sectionOf_withSection_self d sec s _ hs
    have hsb : sectionOf d (Addr.room sec pi spi ri ti).secKey = some s := hs
    exact ⟨t, by simp [taskAt, hsb, Addr.phaseIdx, hget, h1],
      by simp [taskAt, hsa, Addr.phaseIdx, hget', h2]⟩
  · apply stripCompleted_withSection d sec s _ hs
    apply stripSection_phases
    exact modifyAt_map_invariant s.phases pi _ stripPhase phases' hm
      (stripPhase_toggleRoomInPhase spi ri ti v)

theorem takeWhile_all_append (p : Char → Bool) (ws : List Char) (b : Char)
    (rest : List Char) (hws : ∀ c ∈ ws, p c = true) (hb : p b = false) :
    (ws ++ b :: rest).takeWhile p = ws ∧ (ws ++ b :: rest).dropWhile p = b :: rest := by
  induction ws with
  | nil => simp [List.takeWhile_cons, List.dropWhile_cons, hb]
  | cons c cs ih =>
    have hc : p c = true := hws c (by simp)
    have ih2 := ih (fun x hx => hws x (by simp [hx]))
    simp [List.takeWhile_cons, List.dropWhile_cons, hc, ih2.1, ih2.2]

/-- Success of the marker parser determines the full shape of the line, and
the decomposition reassembles to the input unchanged (the parser does not
normalize untouched content). -/
theorem parseMarker_some (cs pre : List Char) (s : Char) (post : List Char)
    (h : parseMarker cs = some (pre, s, post)) :
    cs = pre ++ s :: post ∧
    ∃ ws b ws2 tail,
      pre = ws ++ b :: ws2 ++ ['['] ∧ post = ']' :: tail ∧
      (∀ c ∈ ws, isSpaceChar c = true) ∧ isBullet b = true ∧ ws2 ≠ [] ∧
      (∀ c ∈ ws2, isSpaceChar c = true) ∧ isBoxChar s = true ∧
      okAfterBox tail = true := by
  simp only [parseMarker] at h
  split at h
  case h_2 => exact absurd h (by simp)
  case h_1 b r1 heq =>
    split at h
    case isFalse => exact absurd h (by simp)
    case isTrue hb =>
      split at h
      case h_2 => exact absurd h (by simp)
      case h_1 s1 tail heq2 =>
        split at h
        case isTrue => exact absurd h (by simp)
        case isFalse hws2ne =>
          split at h
          case isFalse => exact absurd h (by simp)
          case isTrue hbox =>
            obtain ⟨hpre, hs, hpost⟩ :
                pre = cs.takeWhile isSpaceChar ++ b :: r1.takeWhile isSpaceChar ++ ['['] ∧
                s = s1 ∧ post = ']' :: tail := by
              simpa [Prod.ext_iff] using h.symm
            subst hpre
            subst hs
            subst hpost
            have hcs : cs = cs.takeWhile isSpaceChar ++ b :: r1 :=
              (List.takeWhile_append_dropWhile isSpaceChar cs).symm.trans (by rw [heq])
            have hr1 : r1 = r1.takeWhile isSpaceChar ++ r1.dropWhile isSpaceChar :=
              (List.takeWhile_append_dropWhile isSpaceChar r1).symm
            constructor
            · conv_lhs => rw [hcs, hr1, heq2]
              simp
            · refine ⟨cs.takeWhile isSpaceChar, b, r1.takeWhile isSpaceChar, tail,
                rfl, rfl, ?_, hb, ?_, ?_, ?_, ?_⟩
              · exact fun c hc => List.mem_takeWhile_imp hc
              · simpa using hws2ne
              · exact fun c hc => List.mem_takeWhile_imp hc
              · exact ((Bool.and_eq_true _ _).mp hbox).1
              · exact ((Bool.and_eq_true _ _).mp hbox).2

theorem isBullet_not_space (b : Char) (hb : isBullet b = true) :
    isSpaceChar b = false := by
  have : b = '-' ∨ b = '*' ∨ b = '+' := by simpa [isBullet, or_assoc] using hb
  rcases this with rfl | rfl | rfl <;> rfl

/-- Any line of the decomposed marker shape parses back to exactly that
decomposition, whichever valid state character sits in the box. -/
theorem parseMarker_reconstruct (ws : List Char) (b : Char) (ws2 : List Char)
    (s : Char) (tail : List Char)
    (hws : ∀ c ∈ ws, isSpaceChar c = true) (hb : isBullet b = true)
    (hws2ne : ws2 ≠ []) (hws2 : ∀ c ∈ ws2, isSpaceChar c = true)
    (hs : isBoxChar s = true) (htail : okAfterBox tail = true) :
    parseMarker (ws ++ b :: (ws2 ++ '[' :: s :: ']' :: tail)) =
      some (ws ++ b :: ws2 ++ ['['], s, ']' :: tail) := by
  obtain ⟨ht1, hd1⟩ := takeWhile_all_append isSpaceChar ws b
    (ws2 ++ '[' :: s :: ']' :: tail) hws (isBullet_not_space b hb)
  obtain ⟨ht2, hd2⟩ := takeWhile_all_append isSpaceChar ws2 '['
    (s :: ']' :: tail) hws2 rfl
  simp [parseMarker, ht1, hd1, ht2, hd2, hb, hs, htail, hws2ne]

theorem set_of_getElem? {α : Type} (l : List α) (m : Nat) (x : α)
    (h : l[m]? = some x) : l.set m x = l := by
  induction l generalizing m with
  | nil => simp at h
  | cons a as ih =>
    cases m with
    | zero =>
      simp only [List.getElem?_cons_zero, Option.some.injEq] at h
      simp [List.set, h]
    | succ m' =>
      simp only [List.getElem?_cons_succ] at h
      simp [List.set, ih m' h]

theorem toggleLine_some (cs cs' : List Char) (c : Bool)
    (h : toggleLine cs = some (cs', c)) :
    ∃ pre s post, parseMarker cs = some (pre, s, post) ∧
      cs' = pre ++ flipBox s :: post ∧ c = (s == ' ') := by
  rcases hp : parseMarker cs with _ | x
  · simp [toggleLine, hp] at h
  · refine ⟨x.1, x.2.1, x.2.2, by simp [hp], ?_, ?_⟩ <;>
      · simp only [toggleLine, hp, Option.map_some'] at h
        simp only [Option.some.injEq, Prod.ext_iff] at h
        simp [h.1.symm, h.2.symm]

theorem isBoxChar_flipBox (s : Char) : isBoxChar (flipBox s) = true := by
  by_cases h : s = ' ' <;> simp [flipBox, isBoxChar, h]

/-- After a flip, the line still parses as a marker, with the same prefix
and suffix and the flipped state character. -/
theorem toggleLine_reparse (cs pre : List Char) (s : Char) (post : List Char)
    (h : parseMarker cs = some (pre, s, post)) (s' : Char)
    (hs' : isBoxChar s' = true) :
    parseMarker (pre ++ s' :: post) = some (pre, s', post) := by
  obtain ⟨-, ws, b, ws2, tail, hpre, hpost, hws, hb, hws2ne, hws2, -, htail⟩ :=
    parseMarker_some cs pre s post h
  subst hpre
  subst hpost
  have := parseMarker_reconstruct ws b ws2 s' tail hws hb hws2ne hws2 hs' htail
  simpa using this

theorem toggleDoc_ok (doc : Document) (n : Nat) (d' : Document) (c : Bool)
    (h : toggleDoc doc n = .ok (d', c)) :
    ∃ m line line', n = m + 1 ∧ doc.lines[m]? = some line ∧
      toggleLine line = some (line', c) ∧
      d' = { doc with lines := doc.lines.set m line' } := by
  cases n with
  | zero => simp [toggleDoc] at h
  | succ m =>
    rcases hl : doc.lines[m]? with _ | line
    · simp [toggleDoc, hl] at h
    · rcases ht : toggleLine line with _ | x
      · simp [toggleDoc, hl, ht] at h
      · refine ⟨m, line, x.1, rfl, hl, ?_, ?_⟩ <;>
          · simp only [toggleDoc, hl, ht] at h
            simp only [Except.ok.injEq, Prod.ext_iff] at h
            simp [ht, h.1.symm, h.2.symm]

theorem setCompleted_stable (v : Bool) (t t' : Task)
    (h : setCompleted v t = some t') : setCompleted v t' = some t' := by
  have := setCompleted_eq_some v t t' h
  subst this
  rfl

theorem toggleInSubPhase_stable (ti : Nat) (v : Bool) (sp sp' : SubPhase)
    (h : toggleInSubPhase ti v sp = some sp') :
    toggleInSubPhase ti v sp' = some sp' := by
  obtain ⟨ts, ts', hts, hm, rfl⟩ := toggleInSubPhase_eq_some ti v sp sp' h
  simp [toggleInSubPhase, modifyAt_stable ts ti _ ts' hm (setCompleted_stable v)]

theorem toggleInPhase_stable (spi : Option Nat) (ti : Nat) (v : Bool)
    (ph ph' : Phase) (h : toggleInPhase spi ti v ph = some ph') :
    toggleInPhase spi ti v ph' = some ph' := by
  cases spi with
  | none =>
    obtain ⟨ts, ts', hts, hm, rfl⟩ := toggleInPhase_none_eq_some ti v ph ph' h
    simp [toggleInPhase, modifyAt_stable ts ti _ ts' hm (setCompleted_stable v)]
  | some j =>
    obtain ⟨sps, sps', hsps, hm, rfl⟩ := toggleInPhase_some_eq_some j ti v ph ph' h
    simp [toggleInPhase,
      modifyAt_stable sps j _ sps' hm (toggleInSubPhase_stable ti v)]

theorem toggleInRoom_stable (ti : Nat) (v : Bool) (room room' : Room)
    (h : toggleInRoom ti v room = some room') :
    toggleInRoom ti v room' = some room' := by
  obtain ⟨ts', hm, rfl⟩ := toggleInRoom_eq_some ti v room room' h
  simp [toggleInRoom, modifyAt_stable room.tasks ti _ ts' hm (setCompleted_stable v)]

theorem toggleRoomInSubPhase_stable (ri ti : Nat) (v : Bool) (sp sp' : SubPhase)
    (h : toggleRoomInSubPhase ri ti v sp = some sp') :
    toggleRoomInSubPhase ri ti v sp' = some sp' := by
  obtain ⟨rooms, rooms', hr, hm, rfl⟩ := toggleRoomInSubPhase_eq_some ri ti v sp sp' h
  simp [toggleRoomInSubPhase,
    modifyAt_stable rooms ri _ rooms' hm (toggleInRoom_stable ti v)]

theorem toggleRoomInPhase_stable (spi ri ti : Nat) (v : Bool) (ph ph' : Phase)
    (h : toggleRoomInPhase spi ri ti v ph = some ph') :
    toggleRoomInPhase spi ri ti v ph' = some ph' := by
  obtain ⟨sps, sps', hsps, hm, rfl⟩ := toggleRoomInPhase_eq_some spi ri ti v ph ph' h
  simp [toggleRoomInPhase,
    modifyAt_stable sps spi _ sps' hm (toggleRoomInSubPhase_stable ri ti v)]

theorem withSection_withSection (d : ChecklistData) (sec : String)
    (s : SectionData) :
    withSection (withSection d sec s) sec s = withSection d sec s := by
  by_cases h1 : sec = "interior" <;> by_cases h2 : sec = "exterior" <;>
    simp_all [withSection]

theorem toggleTaskLocal_stable (d : ChecklistData) (sec : String) (pi : Nat)
    (spi : Option Nat) (ti : Nat) (v : Bool) (d' : ChecklistData)
    (h : toggleTaskLocal d sec pi spi ti v = some d') :
    toggleTaskLocal d' sec pi spi ti v = some d' := by
  obtain ⟨s, phases', hs, hm, rfl⟩ := toggleTaskLocal_eq_some d sec pi spi ti v d' h
  have hs' : sectionOf (withSection d sec { s with phases := phases' }) sec =
      some { s with phases := phases' } :=
    sectionOf_withSection_self d sec s _ hs
  have hm' : modifyAt phases' pi (toggleInPhase spi ti v) = some phases' :=
    modifyAt_stable s.phases pi _ phases' hm (toggleInPhase_stable spi ti v)
  simp [toggleTaskLocal, hs', hm', withSection_withSection]

theorem toggleRoomTaskLocal_stable (d : ChecklistData) (sec : String)
    (pi spi ri ti : Nat) (v : Bool) (d' : ChecklistData)
    (h : toggleRoomTaskLocal d sec pi spi ri ti v = some d') :
    toggleRoomTaskLocal d' sec pi spi ri ti v = some d' := by
  obtain ⟨s, phases', hs, hm, rfl⟩ := toggleRoomTaskLocal_eq_some d sec pi spi ri ti v d' h
  have hs' : sectionOf (withSection d sec { s with phases := phases' }) sec =
      some { s with phases := phases' } :=
    sectionOf_withSection_self d sec s _ hs
  have hm' : modifyAt phases' pi (toggleRoomInPhase spi ri ti v) = some phases' :=
    modifyAt_stable s.phases pi _ phases' hm (toggleRoomInPhase_stable spi ri ti v)
  simp [toggleRoomTaskLocal, hs', hm', withSection_withSection]

/-- A second toggle of the same line succeeds, reports the negated state,
restores the stored completion state, and restores the document byte for
byte unless the original checkbox was the uppercase variant `[X]`, which
comes back as lowercase `[x]`. -/
theorem toggleDoc_twice (doc : Document) (n : Nat) (d1 : Document) (c1 : Bool)
    (h : toggleDoc doc n = .ok (d1, c1)) :
    ∃ d2, toggleDoc d1 n = .ok (d2, !c1) ∧ d2.eol = doc.eol ∧
      docCompletedAt d2 n = docCompletedAt doc n ∧
      (boxAt doc n ≠ some 'X' → d2 = doc) := by
  obtain ⟨m, line, line', hn, hl, htog, rfl⟩ := toggleDoc_ok doc n d1 c1 h
  subst hn
  obtain ⟨pre, s, post, hp, hline', hc⟩ := toggleLine_some line line' c1 htog
  subst hline'
  obtain ⟨hline, ws, b, ws2, tail, hpre, hpost, hws, hb, hws2ne, hws2, hsbox, htail⟩ :=
    parseMarker_some line pre s post hp
  have hmlt : m < doc.lines.length := by
    obtain ⟨hlt, -⟩ := List.getElem?_eq_some.mp hl
    exact hlt
  have hl1 : (doc.lines.set m (pre ++ flipBox s :: post))[m]? =
      some (pre ++ flipBox s :: post) :=
    List.getElem?_set_self hmlt
  have hrep : parseMarker (pre ++ flipBox s :: post) = some (pre, flipBox s, post) :=
    toggleLine_reparse line pre s post hp (flipBox s) (isBoxChar_flipBox s)
  have htog2 : toggleLine (pre ++ flipBox s :: post) =
      some (pre ++ flipBox (flipBox s) :: post, flipBox s == ' ') := by
    simp [toggleLine, hrep]
  refine ⟨{ doc with lines := doc.lines.set m (pre ++ flipBox (flipBox s) :: post) },
    ?_, rfl, ?_, ?_⟩
  · have : toggleDoc { doc with lines := doc.lines.set m (pre ++ flipBox s :: post) }
        (m + 1) =
        .ok ({ doc with
          lines := (doc.lines.set m (pre ++ flipBox s :: post)).set m
            (pre ++ flipBox (flipBox s) :: post) }, flipBox s == ' ') := by
      simp [toggleDoc, hl1, htog2]
    rw [this, List.set_set]
    have hcc : (flipBox s == ' ') = !c1 := by
      subst hc
      by_cases hsp : s = ' '
      · subst hsp
        rfl
      · simp [flipBox, hsp]
    rw [hcc]
  · have hl2 : (doc.lines.set m (pre ++ flipBox (flipBox s) :: post))[m]? =
        some (pre ++ flipBox (flipBox s) :: post) :=
      List.getElem?_set_self hmlt
    have hrep2 : parseMarker (pre ++ flipBox (flipBox s) :: post) =
        some (pre, flipBox (flipBox s), post) :=
      toggleLine_reparse line pre s post hp (flipBox (flipBox s))
        (isBoxChar_flipBox (flipBox s))
    simp only [docCompletedAt, hl2, hl, hp, hrep2, Option.some_bind, Option.map_some']
    by_cases hsp : s = ' '
    · subst hsp
      rfl
    · simp [flipBox, hsp]
  · intro hX
    have hsX : s ≠ 'X' := by
      simp only [boxAt, hl, hp, Option.some_bind, Option.map_some'] at hX
      simpa using hX
    have hss : flipBox (flipBox s) = s := by
      have : s = ' ' ∨ s = 'x' ∨ s = 'X' := by
        simpa [isBoxChar, or_assoc] using hsbox
      rcases this with rfl | rfl | rfl
      · rfl
      · rfl
      · exact absurd rfl hsX
    rw [hss, ← hline, set_of_getElem? doc.lines m line hl]

/-- Every failure path of the modelled write-back leaves the filesystem
untouched. -/
theorem toggleFs_error_frame (fs : List (String × Document)) (p : String)
    (n : Nat) (ioOk : Bool) (e : ToggleError)
    (h : (toggleFs fs p n ioOk).2 = .error e) : (toggleFs fs p n ioOk).1 = fs := by
  rcases hd : lookupFs fs p with _ | doc
  · simp [toggleFs, hd]
  · rcases ht : toggleDoc doc n with e' | ok
    · simp [toggleFs, hd, ht]
    · cases ioOk with
      | false => simp [toggleFs, hd, ht]
      | true => simp [toggleFs, hd, ht] at h

theorem lookupFs_writeFs_ne (fs : List (String × Document)) (p q : String)
    (doc : Document) (h : q ≠ p) :
    lookupFs (writeFs fs p doc) q = lookupFs fs q := by
  induction fs with
  | nil => rfl
  | cons e fs ih =>
    by_cases hep : e.1 = p
    · have heq : ¬(e.1 = q) := by
        rw [hep]
        exact fun hh => h hh.symm
      have hpq : ¬(p = q) := fun hh => h hh.symm
      simp [writeFs, lookupFs, hep, heq, ih, hpq]
    · by_cases heq : e.1 = q
      · simp [writeFs, lookupFs, hep, heq, h]
      · simp [writeFs, lookupFs, hep, heq, ih, h]

theorem lookupFs_writeFs_self (fs : List (String × Document)) (p : String)
    (doc0 doc : Document) (h : lookupFs fs p = some doc0) :
    lookupFs (writeFs fs p doc) p = some doc := by
  induction fs with
  | nil => simp [lookupFs] at h
  | cons e fs ih =>
    by_cases hep : e.1 = p
    · simp [writeFs, lookupFs, hep]
    · have h' : lookupFs fs p = some doc0 := by
        simpa [lookupFs, hep] using h
      simpa [writeFs, lookupFs, hep] using ih h'

/-- A successful modelled write-back mutates exactly the addressed document:
the one at `p` becomes the toggled document, every other path reads
byte-identically. -/
theorem toggleFs_ok_frame (fs : List (String × Document)) (p : String)
    (n : Nat) (ioOk : Bool) (c : Bool)
    (h : (toggleFs fs p n ioOk).2 = .ok c) :
    ∃ doc doc', lookupFs fs p = some doc ∧ toggleDoc doc n = .ok (doc', c) ∧
      lookupFs (toggleFs fs p n ioOk).1 p = some doc' ∧
      ∀ q, q ≠ p → lookupFs (toggleFs fs p n ioOk).1 q = lookupFs fs q := by
  rcases hd : lookupFs fs p with _ | doc
  · simp [toggleFs, hd] at h
  · rcases ht : toggleDoc doc n with e' | ok
    · simp [toggleFs, hd, ht] at h
    · cases ioOk with
      | false => simp [toggleFs, hd, ht] at h
      | true =>
        have hc : ok.2 = c := by simpa [toggleFs, hd, ht] using h
        have hfs1 : (toggleFs fs p n true).1 = writeFs fs p ok.1 := by
          simp [toggleFs, hd, ht]
        refine ⟨doc, ok.1, rfl, ?_, ?_, ?_⟩
        · rw [ht, ← hc]
        · rw [hfs1]
          exact lookupFs_writeFs_self fs p doc ok.1 hd
        · intro q hq
          rw [hfs1]
          exact lookupFs_writeFs_ne fs p q ok.1 hq

theorem phaseCount_eq (acc : Nat × Nat) (ph : Phase) :
    phaseCount acc ph =
      (acc.1 + (leafCount (phaseLeaves ph)).1,
       acc.2 + (leafCount (phaseLeaves ph)).2) := by
  unfold phaseCount phaseLeaves
  match ph with
  | ⟨title, some sps, tasks⟩ => simpa using foldl_subPhaseCount sps acc
  | ⟨title, none, some ts⟩ => simpa using foldl_addCount ts acc
  | ⟨title, none, none⟩ => simp [leafCount]

theorem foldl_phaseCount (phases : List Phase) (acc : Nat × Nat) :
    phases.foldl phaseCount acc =
      (acc.1 + (leafCount ((phases.map phaseLeaves).flatten)).1,
       acc.2 + (leafCount ((phases.map phaseLeaves).flatten)).2) := by
  induction phases generalizing acc with
  | nil => simp [leafCount]
  | cons ph phases ih =>
    rw [List.foldl_cons, phaseCount_eq, ih]
    simp only [List.map_cons, List.flatten_cons, leafCount, List.length_append,
      List.filter_append, Prod.mk.injEq]
    omega

theorem exteriorCount_some (phases : List Phase)
    (hshape : ∀ ph ∈ phases, ph.tasks.isSome) :
    exteriorCount phases =
      some (leafCount ((phases.map (fun ph => ph.tasks.getD [])).flatten)) := by
  unfold exteriorCount
  suffices hgen : ∀ acc : Nat × Nat,
      phases.foldlM (fun acc ph => ph.tasks.map (fun ts => ts.foldl addCount acc)) acc =
        some (acc.1 + (leafCount ((phases.map (fun ph => ph.tasks.getD [])).flatten)).1,
          acc.2 + (leafCount ((phases.map (fun ph => ph.tasks.getD [])).flatten)).2) by
    simpa using hgen (0, 0)
  induction phases with
  | nil => intro acc; simp [leafCount]
  | cons ph phases ih =>
    intro acc
    obtain ⟨ts, hts⟩ := Option.isSome_iff_exists.mp (hshape ph (by simp))
    have ihs := ih (fun q hq => hshape q (by simp [hq])) (ts.foldl addCount acc)
    rw [List.foldlM_cons, hts]
    simp only [Option.map_some', Option.bind_eq_bind, Option.some_bind,
      Option.pure_def]
    rw [ihs]
    simp only [foldl_addCount, List.map_cons, List.flatten_cons, leafCount,
      List.length_append, List.filter_append, Option.some.injEq, Prod.mk.injEq,
      Option.getD_some, hts]
    omega

theorem exteriorCount_isSome_shape (phases : List Phase) (ec : Nat × Nat)
    (h : exteriorCount phases = some ec) : ∀ ph ∈ phases, ph.tasks.isSome := by
  unfold exteriorCount at h
  suffices hgen : ∀ acc ec, phases.foldlM
      (fun acc ph => ph.tasks.map (fun ts => ts.foldl addCount acc)) acc = some ec →
      ∀ ph ∈ phases, ph.tasks.isSome from hgen (0, 0) ec h
  clear h
  induction phases with
  | nil => intro acc ec _ ph hph; simp at hph
  | cons ph0 phases ih =>
    intro acc ec hfold ph hph
    rcases hts : ph0.tasks with _ | ts
    · simp [List.foldlM_cons, hts] at hfold
    · rcases List.mem_cons.mp hph with rfl | hph2
      · simp [hts]
      · simp only [List.foldlM_cons, hts, Option.map_some', Option.bind_eq_bind,
          Option.some_bind, Option.pure_def] at hfold
        exact ih _ _ hfold ph hph2

theorem scanCorpus_eq (corpus : List (String × Option (List (List Char)))) :
    scanCorpus corpus = (goodTodos corpus, badPaths corpus) := by
  unfold scanCorpus
  suffices hgen : ∀ acc : List TodoRec × List String,
      corpus.foldl
        (fun acc e =>
          match e.2 with
          | some lines => (acc.1 ++ docTodos e.1 lines, acc.2)
          | none => (acc.1, acc.2 ++ [e.1])) acc =
        (acc.1 ++ goodTodos corpus, acc.2 ++ badPaths corpus) by
    simpa using hgen ([], [])
  induction corpus with
  | nil => intro acc; simp [goodTodos, badPaths]
  | cons e corpus ih =>
    intro acc
    rcases he : e.2 with _ | lines
    · simp only [List.foldl_cons, he, ih, goodTodos, badPaths, List.filterMap_cons]
      simp [he, List.append_assoc]
    · simp only [List.foldl_cons, he, ih, goodTodos, badPaths, List.filterMap_cons]
      simp [he, List.append_assoc]

/-- What a successful `updateStatistics` reports, in terms of the task
leaves of the snapshot. -/
theorem updateStatistics_eq (d : ChecklistData) (st : Stats)
    (h : updateStatistics d = some st) :
    st.totalTasks = (allLeaves d).length ∧
    st.completedTasks = ((allLeaves d).filter (·.completed)).length ∧
    st.remainingTasks = st.totalTasks - st.completedTasks ∧
    st.overallPercentage = pctDisplay st.completedTasks st.totalTasks := by
  rcases hec : exteriorCount d.exterior.phases with _ | ec
  · simp [updateStatistics, hec] at h
  · have hic := foldl_phaseCount d.interior.phases (0, 0)
    have hshape := exteriorCount_isSome_shape d.exterior.phases ec hec
    have hec2 := exteriorCount_some d.exterior.phases hshape
    rw [hec] at hec2
    obtain rfl : ec = leafCount (exteriorLeaves d) := by
      simpa [exteriorLeaves] using hec2
    have hst : st = {
        totalTasks := (d.interior.phases.foldl phaseCount (0, 0)).1 + (leafCount (exteriorLeaves d)).1
        completedTasks := (d.interior.phases.foldl phaseCount (0, 0)).2 + (leafCount (exteriorLeaves d)).2
        remainingTasks := (d.interior.phases.foldl phaseCount (0, 0)).1 + (leafCount (exteriorLeaves d)).1 -
          ((d.interior.phases.foldl phaseCount (0, 0)).2 + (leafCount (exteriorLeaves d)).2)
        overallPercentage := pctDisplay
          ((d.interior.phases.foldl phaseCount (0, 0)).2 + (leafCount (exteriorLeaves d)).2)
          ((d.interior.phases.foldl phaseCount (0, 0)).1 + (leafCount (exteriorLeaves d)).1)
        interiorTotal := (d.interior.phases.foldl phaseCount (0, 0)).1
        interiorCompleted := (d.interior.phases.foldl phaseCount (0, 0)).2
        interiorRemaining := (d.interior.phases.foldl phaseCount (0, 0)).1 -
          (d.interior.phases.foldl phaseCount (0, 0)).2
        interiorPercentage := pctDisplay (d.interior.phases.foldl phaseCount (0, 0)).2
          (d.interior.phases.foldl phaseCount (0, 0)).1
        exteriorTotal := (leafCount (exteriorLeaves d)).1
        exteriorCompleted := (leafCount (exteriorLeaves d)).2
        exteriorRemaining := (leafCount (exteriorLeaves d)).1 - (leafCount (exteriorLeaves d)).2
        exteriorPercentage := pctDisplay (leafCount (exteriorLeaves d)).2
          (leafCount (exteriorLeaves d)).1 } := by
      symm
      simpa [updateStatistics, hec, exteriorLeaves] using h
    subst hst
    rw [hic]
    refine ⟨?_, ?_, ?_, ?_⟩
    · simp [allLeaves, interiorLeaves, leafCount]
    · simp [allLeaves, interiorLeaves, leafCount]
    · simp [hic]
    · simp [hic]

/-- Under the handled shapes (every exterior phase has direct `tasks`),
`updateStatistics` completes. -/
theorem updateStatistics_isSome (d : ChecklistData)
    (hshape : exteriorShapeOk d) : (updateStatistics d).isSome := by
  have := exteriorCount_some d.exterior.phases hshape
  simp [updateStatistics, this]

theorem leafCount_flatten (ls : List (List Task)) :
    leafCount ls.flatten = sumPairs (ls.map leafCount) := by
  induction ls with
  | nil => rfl
  | cons l ls ih =>
    simp only [List.flatten_cons, List.map_cons, sumPairs, List.foldr_cons]
    rw [show (List.map leafCount ls).foldr pairAdd (0, 0) = sumPairs (ls.map leafCount) from rfl,
      ← ih]
    simp [leafCount, pairAdd, List.length_append, List.filter_append]

/-- C1 (spec-modelled write-back engine): a successful
`toggle(filePath, lineNumber)` changes only the checkbox token on the
addressed line — the line decomposes as `pre ++ state :: post` (with
`pre`/`post` byte-identical before and after, only the single state
character flipped), every other line is byte-identical, the line count is
preserved, and the line-ending convention is unchanged. -/
theorem claim_C1_toggle_write_back_frame (doc : Document) (n : Nat)
    (d' : Document) (c : Bool) (h : toggleDoc doc n = .ok (d', c)) :
    d'.eol = doc.eol ∧ d'.lines.length = doc.lines.length ∧
    (∀ j, j ≠ n - 1 → d'.lines[j]? = doc.lines[j]?) ∧
    ∃ pre s post, doc.lines[n - 1]? = some (pre ++ s :: post) ∧
      parseMarker (pre ++ s :: post) = some (pre, s, post) ∧
      d'.lines[n - 1]? = some (pre ++ flipBox s :: post) := by
  obtain ⟨m, line, line', hn, hl, htog, rfl⟩ := toggleDoc_ok doc n d' c h
  subst hn
  obtain ⟨pre, s, post, hp, hline', hc⟩ := toggleLine_some line line' c htog
  subst hline'
  obtain ⟨hline, -⟩ := parseMarker_some line pre s post hp
  have hmlt : m < doc.lines.length := (List.getElem?_eq_some.mp hl).1
  refine ⟨rfl, by simp, ?_, pre, s, post, ?_, ?_, ?_⟩
  · intro j hj
    simp only [Nat.add_sub_cancel] at hj
    exact List.getElem?_set_ne (fun hh => hj hh.symm)
  · simpa [Nat.add_sub_cancel, ← hline] using hl
  · rw [← hline]
    exact hp
  · simpa [Nat.add_sub_cancel] using List.getElem?_set_self hmlt

/-- Witness for C1 at a concrete CRLF document and line 2. -/
theorem claim_C1_witness :
    toggleDoc sampleDoc 2 = .ok (sampleDocT, true) ∧
    (sampleDocT.eol = sampleDoc.eol ∧
      sampleDocT.lines.length = sampleDoc.lines.length ∧
      (∀ j, j ≠ 2 - 1 → sampleDocT.lines[j]? = sampleDoc.lines[j]?) ∧
      ∃ pre s post, sampleDoc.lines[2 - 1]? = some (pre ++ s :: post) ∧
        parseMarker (pre ++ s :: post) = some (pre, s, post) ∧
        sampleDocT.lines[2 - 1]? = some (pre ++ flipBox s :: post)) :=
  ⟨rfl, claim_C1_toggle_write_back_frame sampleDoc 2 sampleDocT true rfl⟩

/-- C2 as stated is refuted by `toggleTask` in `app.js`: the in-memory
state is optimistically mutated before the backend call, and a failing call
(`fetchOk = false`) does not roll it back — the state is not "left exactly
as it was before the call". -/
theorem claim_C2_counterexample :
    clientStep (some sampleData)
        (ClientEvent.toggleEv "interior" 1 none 0 true false) ≠
      some sampleData := by
  decide

/-- C2 (amended): on the disk side (spec-modelled write-back), every
failure path leaves the filesystem untouched and a successful call mutates
exactly the addressed document; on the frontend, the local state after a
toggle call does not depend on whether the backend POST succeeded — the
optimistic in-memory flip persists even when the call fails. -/
theorem claim_C2_failure_isolation :
    (∀ fs p n ioOk e, (toggleFs fs p n ioOk).2 = .error e →
      (toggleFs fs p n ioOk).1 = fs) ∧
    (∀ fs p n ioOk c, (toggleFs fs p n ioOk).2 = .ok c →
      ∃ doc doc', lookupFs fs p = some doc ∧ toggleDoc doc n = .ok (doc', c) ∧
        lookupFs (toggleFs fs p n ioOk).1 p = some doc' ∧
        ∀ q, q ≠ p → lookupFs (toggleFs fs p n ioOk).1 q = lookupFs fs q) ∧
    (∀ s sec pi spi ti v, clientStep s (.toggleEv sec pi spi ti v true) =
      clientStep s (.toggleEv sec pi spi ti v false)) ∧
    (∀ s sec pi spi ri ti v, clientStep s (.toggleRoomEv sec pi spi ri ti v true) =
      clientStep s (.toggleRoomEv sec pi spi ri ti v false)) :=
  ⟨toggleFs_error_frame, toggleFs_ok_frame,
    fun _ _ _ _ _ _ => rfl, fun _ _ _ _ _ _ _ => rfl⟩

/-- Witness for the amended C2: a `NotFound` failure leaves the concrete
filesystem untouched. -/
theorem claim_C2_witness :
    (toggleFs sampleFs "missing.md" 1 true).2 = .error .notFound ∧
    (toggleFs sampleFs "missing.md" 1 true).1 = sampleFs :=
  ⟨rfl, claim_C2_failure_isolation.1 sampleFs "missing.md" 1 true .notFound rfl⟩

/-- C3: the optimistic toggles of `app.js` set exactly the addressed task's
`completed` field to the requested value (keeping its text); every other
address reads the same task, and `stripCompleted` (titles, texts, nesting
structure) is invariant. -/
theorem claim_C3_optimistic_toggle_frame :
    (∀ d sec pi spi ti v d', toggleTaskLocal d sec pi spi ti v = some d' →
      (∀ a, a ≠ toggleAddr sec pi spi ti → taskAt d' a = taskAt d a) ∧
      (∃ t, taskAt d (toggleAddr sec pi spi ti) = some t ∧
        taskAt d' (toggleAddr sec pi spi ti) = some { t with completed := v }) ∧
      stripCompleted d' = stripCompleted d) ∧
    (∀ d sec pi spi ri ti v d', toggleRoomTaskLocal d sec pi spi ri ti v = some d' →
      (∀ a, a ≠ Addr.room sec pi spi ri ti → taskAt d' a = taskAt d a) ∧
      (∃ t, taskAt d (Addr.room sec pi spi ri ti) = some t ∧
        taskAt d' (Addr.room sec pi spi ri ti) = some { t with completed := v }) ∧
      stripCompleted d' = stripCompleted d) :=
  ⟨fun d sec pi spi ti v d' h => toggleTaskLocal_frame d sec pi spi ti v d' h,
   fun d sec pi spi ri ti v d' h => toggleRoomTaskLocal_frame d sec pi spi ri ti v d' h⟩

/-- Witness for C3 at a concrete toggle of interior phase 2, task 0. -/
theorem claim_C3_witness :
    toggleTaskLocal sampleData "interior" 1 none 0 true = some sampleDataT ∧
    taskAt sampleDataT (Addr.direct "exterior" 0 0) =
      taskAt sampleData (Addr.direct "exterior" 0 0) ∧
    stripCompleted sampleDataT = stripCompleted sampleData := by
  have h := claim_C3_optimistic_toggle_frame.1 sampleData "interior" 1 none 0
    true sampleDataT (by decide)
  exact ⟨by decide, h.1 _ (by decide), h.2.2⟩

/-- C4: when `updateStatistics` completes (the shapes the code handles),
its totals are exactly the number of task leaves, the number of completed
leaves, and their difference, and the overall completion rate is
`completed / total * 100` rendered to one decimal place (in exact rational
arithmetic; double rounding abstracted). -/
theorem claim_C4_statistics (d : ChecklistData) (st : Stats)
    (h : updateStatistics d = some st) :
    st.totalTasks = (allLeaves d).length ∧
    st.completedTasks = ((allLeaves d).filter (·.completed)).length ∧
    st.remainingTasks = st.totalTasks - st.completedTasks ∧
    (st.totalTasks ≠ 0 → st.overallPercentage =
      some (jsToFixed1 (((((allLeaves d).filter (·.completed)).length : ℚ)) /
        (((allLeaves d).length : ℚ)) * 100))) := by
  obtain ⟨h1, h2, h3, h4⟩ := updateStatistics_eq d st h
  refine ⟨h1, h2, h3, fun hne => ?_⟩
  rw [h4]
  unfold pctDisplay
  rw [if_neg hne, h1, h2]

/-- Witness for C4 at the concrete snapshot. -/
theorem claim_C4_witness :
    updateStatistics sampleData = some sampleStats ∧
    sampleStats.totalTasks = (allLeaves sampleData).length ∧
    sampleStats.overallPercentage =
      some (jsToFixed1 (((((allLeaves sampleData).filter (·.completed)).length : ℚ)) /
        (((allLeaves sampleData).length : ℚ)) * 100)) := by
  have h := claim_C4_statistics sampleData sampleStats (by rfl)
  exact ⟨rfl, h.1, h.2.2.2 (by decide)⟩

/-- C5: the client state only changes by wholesale snapshot replacement
(websocket `update`/`initial` message, or the initial fetch) or by the
single-field optimistic toggle; a received snapshot replaces the state
exactly, whatever the prior state held — a prior optimistic toggle is
overwritten unconditionally, never merged. -/
theorem claim_C5_snapshot_replacement :
    (∀ s t data, (t = "update" ∨ t = "initial") →
      clientStep s (.wsMessage t data) = some data) ∧
    (∀ s e, clientStep s e = s ∨
      (∃ data, clientStep s e = some data ∧
        ((∃ t, e = .wsMessage t data) ∨ e = .fetchLoaded data)) ∨
      (∃ d sec pi spi ti v fOk d', s = some d ∧ e = .toggleEv sec pi spi ti v fOk ∧
        toggleTaskLocal d sec pi spi ti v = some d' ∧ clientStep s e = some d') ∨
      (∃ d sec pi spi ri ti v fOk d', s = some d ∧
        e = .toggleRoomEv sec pi spi ri ti v fOk ∧
        toggleRoomTaskLocal d sec pi spi ri ti v = some d' ∧
        clientStep s e = some d')) := by
  constructor
  · intro s t data ht
    simp [clientStep, ht]
  · intro s e
    cases e with
    | wsMessage t data =>
      by_cases hcond : t = "update" ∨ t = "initial"
      · exact Or.inr (Or.inl ⟨data, by simp [clientStep, hcond], Or.inl ⟨t, rfl⟩⟩)
      · left
        simp [clientStep, hcond]
    | fetchLoaded data =>
      exact Or.inr (Or.inl ⟨data, by simp [clientStep], Or.inr rfl⟩)
    | toggleEv sec pi spi ti v fOk =>
      cases s with
      | none => left; simp [clientStep]
      | some d =>
        rcases htog : toggleTaskLocal d sec pi spi ti v with _ | d'
        · left
          simp [clientStep, htog]
        · exact Or.inr (Or.inr (Or.inl ⟨d, sec, pi, spi, ti, v, fOk, d', rfl, rfl,
            htog, by simp [clientStep, htog]⟩))
    | toggleRoomEv sec pi spi ri ti v fOk =>
      cases s with
      | none => left; simp [clientStep]
      | some d =>
        rcases htog : toggleRoomTaskLocal d sec pi spi ri ti v with _ | d'
        · left
          simp [clientStep, htog]
        · exact Or.inr (Or.inr (Or.inr ⟨d, sec, pi, spi, ri, ti, v, fOk, d', rfl, rfl,
            htog, by simp [clientStep, htog]⟩))

/-- Witness for C5: an `update` snapshot overwrites a state holding an
optimistic toggle. -/
theorem claim_C5_witness :
    clientStep (some sampleDataT) (ClientEvent.wsMessage "update" sampleData) =
      some sampleData :=
  claim_C5_snapshot_replacement.1 (some sampleDataT) "update" sampleData (Or.inl rfl)

/-- C6 as stated is refuted by the spec's own flip table: a line with the
uppercase checkbox `[X]` toggles to `[ ]` and back to lowercase `[x]`, so
two successive toggles do not restore the original byte content. -/
theorem claim_C6_counterexample :
    toggleDoc upperDoc 1 = .ok (upperDoc1, false) ∧
    toggleDoc upperDoc1 1 = .ok (upperDoc2, true) ∧
    upperDoc2 ≠ upperDoc :=
  ⟨rfl, rfl, by decide⟩

/-- C6 (amended): two successive toggles of the same line negate the
reported state twice, restore the stored completion state, preserve the
line-ending convention, and restore the document byte for byte whenever the
original checkbox token is not the uppercase `[X]` (which is normalized to
lowercase `[x]`); the frontend optimistic toggles repeated with the same
requested value are idempotent. -/
theorem claim_C6_double_toggle :
    (∀ doc n d1 c1, toggleDoc doc n = .ok (d1, c1) →
      ∃ d2, toggleDoc d1 n = .ok (d2, !c1) ∧ d2.eol = doc.eol ∧
        docCompletedAt d2 n = docCompletedAt doc n ∧
        (boxAt doc n ≠ some 'X' → d2 = doc)) ∧
    (∀ d sec pi spi ti v d', toggleTaskLocal d sec pi spi ti v = some d' →
      toggleTaskLocal d' sec pi spi ti v = some d') ∧
    (∀ d sec pi spi ri ti v d', toggleRoomTaskLocal d sec pi spi ri ti v = some d' →
      toggleRoomTaskLocal d' sec pi spi ri ti v = some d') :=
  ⟨fun doc n d1 c1 h => toggleDoc_twice doc n d1 c1 h,
   fun d sec pi spi ti v d' h => toggleTaskLocal_stable d sec pi spi ti v d' h,
   fun d sec pi spi ri ti v d' h => toggleRoomTaskLocal_stable d sec pi spi ri ti v d' h⟩

/-- Witness for the amended C6 at a concrete document with `[ ]`. -/
theorem claim_C6_witness :
    toggleDoc sampleDoc 2 = .ok (sampleDocT, true) ∧
    (∃ d2, toggleDoc sampleDocT 2 = .ok (d2, !true) ∧ d2.eol = sampleDoc.eol ∧
      docCompletedAt d2 2 = docCompletedAt sampleDoc 2 ∧
      (boxAt sampleDoc 2 ≠ some 'X' → d2 = sampleDoc)) :=
  ⟨rfl, claim_C6_double_toggle.1 sampleDoc 2 sampleDocT true rfl⟩

/-- C7 (spec-modelled corpus scanner): with at least one unreadable
document, the scan still completes with the index equal to the
concatenation of every readable document's todos (so every readable
document's todos appear), at least one warning is reported (one per bad
document, its path), and the index is empty only if the readable documents
have no todos at all. -/
theorem claim_C7_fault_isolation (corpus : List (String × Option (List (List Char))))
    (hbad : ∃ e ∈ corpus, e.2 = none) :
    (scanCorpus corpus).1 = goodTodos corpus ∧
    (scanCorpus corpus).2 = badPaths corpus ∧
    1 ≤ (scanCorpus corpus).2.length ∧
    (∀ p lines, (p, some lines) ∈ corpus →
      ∀ t ∈ docTodos p lines, t ∈ (scanCorpus corpus).1) ∧
    ((∃ p lines, (p, some lines) ∈ corpus ∧ docTodos p lines ≠ []) →
      (scanCorpus corpus).1 ≠ []) := by
  have heq := scanCorpus_eq corpus
  have h1 : (scanCorpus corpus).1 = goodTodos corpus := by rw [heq]
  have h2 : (scanCorpus corpus).2 = badPaths corpus := by rw [heq]
  have hmem : ∀ p lines, (p, some lines) ∈ corpus →
      ∀ t ∈ docTodos p lines, t ∈ (scanCorpus corpus).1 := by
    intro p lines hm t ht
    rw [h1]
    unfold goodTodos
    refine List.mem_flatten.mpr ⟨docTodos p lines, ?_, ht⟩
    exact List.mem_filterMap.mpr ⟨(p, some lines), hm, rfl⟩
  refine ⟨h1, h2, ?_, hmem, ?_⟩
  · obtain ⟨e, hm, he⟩ := hbad
    have : e.1 ∈ badPaths corpus := by
      refine List.mem_filterMap.mpr ⟨e, hm, ?_⟩
      rw [he]
    rw [h2]
    exact Nat.succ_le_of_lt (List.length_pos.mpr (List.ne_nil_of_mem this))
  · rintro ⟨p, lines, hm, hne⟩
    obtain ⟨t, ht⟩ := List.exists_mem_of_ne_nil _ hne
    exact List.ne_nil_of_mem (hmem p lines hm t ht)

/-- Witness for C7 at a three-document corpus with one unreadable file. -/
theorem claim_C7_witness :
    (("bad.md", (none : Option (List (List Char)))) ∈ sampleCorpus) ∧
    (scanCorpus sampleCorpus).1 = goodTodos sampleCorpus ∧
    1 ≤ (scanCorpus sampleCorpus).2.length ∧
    (scanCorpus sampleCorpus).1 ≠ [] := by
  have h := claim_C7_fault_isolation sampleCorpus
    ⟨("bad.md", none), by decide, rfl⟩
  exact ⟨by decide, h.1, h.2.2.1,
    h.2.2.2.2 ⟨"a.md", ["- [ ] t".toList], by decide, by decide⟩⟩

/-- C8: `calculatePhaseProgress`'s `(total, completed)` pair is the
componentwise sum of `calculateSubPhaseProgress` over its `subPhases` (or
the direct leaf count of its `tasks` when `subPhases` is absent);
`calculateSubPhaseProgress` with `rooms` is the componentwise sum of
`calculateRoomProgress`; and `completed ≤ total` at every level. -/
theorem claim_C8_progress_decomposition :
    (∀ ph : Phase,
      ((calculatePhaseProgress ph).total, (calculatePhaseProgress ph).completed) =
        match ph.subPhases with
        | some sps => sumPairs (sps.map calculateSubPhaseProgress)
        | none => leafCount (ph.tasks.getD [])) ∧
    (∀ sp : SubPhase,
      calculateSubPhaseProgress sp =
        match sp.rooms with
        | some rooms => sumPairs (rooms.map calculateRoomProgress)
        | none => leafCount (sp.tasks.getD [])) ∧
    (∀ r : Room, (calculateRoomProgress r).2 ≤ (calculateRoomProgress r).1) ∧
    (∀ sp : SubPhase,
      (calculateSubPhaseProgress sp).2 ≤ (calculateSubPhaseProgress sp).1) ∧
    (∀ ph : Phase,
      (calculatePhaseProgress ph).completed ≤ (calculatePhaseProgress ph).total) := by
  have hroom : ∀ r : Room, calculateRoomProgress r = leafCount (roomLeaves r) :=
    calculateRoomProgress_count
  have hsub : ∀ sp : SubPhase,
      calculateSubPhaseProgress sp = leafCount (subPhaseLeaves sp) :=
    calculateSubPhaseProgress_count
  have hle : ∀ ts : List Task, (leafCount ts).2 ≤ (leafCount ts).1 := by
    intro ts
    simpa [leafCount] using List.length_filter_le (fun t => t.completed) ts
  refine ⟨?_, ?_, ?_, ?_, ?_⟩
  · intro ph
    rw [calculatePhaseProgress_count ph]
    unfold phaseLeaves
    cases hsp : ph.subPhases with
    | none => rfl
    | some sps =>
      simp only
      rw [leafCount_flatten, List.map_map]
      congr 1
      exact List.map_congr_left (fun sp _ => ((hsub sp).symm : _))
  · intro sp
    rw [hsub sp]
    unfold subPhaseLeaves
    cases hr : sp.rooms with
    | none => rfl
    | some rooms =>
      simp only
      rw [leafCount_flatten, List.map_map]
      congr 1
      exact List.map_congr_left (fun r _ => ((hroom r).symm : _))
  · intro r
    rw [hroom r]
    exact hle _
  · intro sp
    rw [hsub sp]
    exact hle _
  · intro ph
    have := calculatePhaseProgress_count ph
    have h1 : (calculatePhaseProgress ph).total = (leafCount (phaseLeaves ph)).1 :=
      congrArg Prod.fst this
    have h2 : (calculatePhaseProgress ph).completed = (leafCount (phaseLeaves ph)).2 :=
      congrArg Prod.snd this
    rw [h1, h2]
    exact hle _

/-- C9: a phase with zero task leaves reports
`{total: 0, completed: 0, percentage: 0}` — the percentage division is
guarded by `total > 0` and returns the number 0, never an undefined value. -/
theorem claim_C9_zero_leaf_phase (ph : Phase) (h : phaseLeaves ph = []) :
    calculatePhaseProgress ph = ⟨0, 0, 0⟩ := by
  have hc := calculatePhaseProgress_count ph
  rw [h] at hc
  have ht : (calculatePhaseProgress ph).total = 0 := by
    simpa [leafCount] using congrArg Prod.fst hc
  have hcomp : (calculatePhaseProgress ph).completed = 0 := by
    simpa [leafCount] using congrArg Prod.snd hc
  have hper : (calculatePhaseProgress ph).percentage =
      if (calculatePhaseProgress ph).total > 0 then
        jsToFixed1 (((calculatePhaseProgress ph).completed : ℚ) /
          ((calculatePhaseProgress ph).total : ℚ) * 100)
      else 0 := rfl
  rcases hpp : calculatePhaseProgress ph with ⟨t, c, perc⟩
  rw [hpp] at ht hcomp hper
  simp only at ht hcomp hper
  subst ht
  subst hcomp
  simp only [Nat.lt_irrefl, if_neg (by omega : ¬(0 : Nat) > 0)] at hper
  rw [hper]
  simp

/-- Witness for C9 at a phase whose `subPhases` array is present but empty. -/
theorem claim_C9_witness :
    phaseLeaves emptyPhase = [] ∧ calculatePhaseProgress emptyPhase = ⟨0, 0, 0⟩ :=
  ⟨rfl, claim_C9_zero_leaf_phase emptyPhase rfl⟩

/-- C10: under the shape precondition (every exterior phase carries a
direct `tasks` array; every interior phase carries `tasks` or `subPhases`
of sub-phases carrying `tasks` or `rooms`) `updateStatistics` completes,
and the interior precondition is not even needed — every interior shape is
handled; an exterior phase expressed with `subPhases` instead of `tasks` is
outside the handled shapes: the unconditional `phase.tasks` access makes
`updateStatistics` throw (`none`). -/
theorem claim_C10_shape_totality :
    (∀ d : ChecklistData, exteriorShapeOk d → interiorShapeOk d →
      (updateStatistics d).isSome) ∧
    updateStatistics badExteriorData = none := by
  refine ⟨fun d hext _ => updateStatistics_isSome d hext, ?_⟩
  rfl

/-- Witness for C10's totality direction at the concrete snapshot. -/
theorem claim_C10_witness :
    exteriorShapeOk sampleData ∧ interiorShapeOk sampleData ∧
      (updateStatistics sampleData).isSome :=
  ⟨by decide, by decide,
    claim_C10_shape_totality.1 sampleData (by decide) (by decide)⟩

end HC
